import Mathlib

set_option maxRecDepth 100000

/-!
Shallow embedding of the trademark-search pipeline of `server.js`:
the link extractor `extractDetailLinks`, the detail-page field parser
`parseDetail`, the per-name orchestrator `processName` with its
URL-keyed detail cache, and the batch request handler.  Strings are
modelled as `List Char` at the scanner level; each JavaScript regular
expression used by the source is embedded as an explicit, executable
scanner with the same leftmost, greedy, non-overlapping semantics.
-/

/-- ASCII lower-casing of one character, the case folding the embedded
case-insensitive scanners use (every pattern letter in the source is ASCII). -/
def lcChar (c : Char) : Char :=
  if 'A' ≤ c ∧ c ≤ 'Z' then Char.ofNat (c.toNat + 32) else c

/-- The character class `\s` of JavaScript regular expressions. -/
def isJsSpace (c : Char) : Bool :=
  if c = ' ' ∨ c = '\t' ∨ c = '\n' ∨ c = '\r' ∨ c.toNat = 11 ∨ c.toNat = 12 ∨
      c.toNat = 160 ∨ c.toNat = 5760 ∨ (8192 ≤ c.toNat ∧ c.toNat ≤ 8202) ∨
      c.toNat = 8232 ∨ c.toNat = 8233 ∨ c.toNat = 8239 ∨ c.toNat = 8287 ∨
      c.toNat = 12288 ∨ c.toNat = 65279 then true else false

/-- The character class `\d` of JavaScript regular expressions. -/
def isAsciiDigit (c : Char) : Bool :=
  if '0' ≤ c ∧ c ≤ '9' then true else false

/-- Case-insensitive literal match: if lower-casing `s` starts with the
(lower-case) pattern `pat`, return the consumed original characters and
the remainder of `s`. -/
def ciDropKeep (pat : List Char) (s : List Char) : Option (List Char × List Char) :=
  match pat, s with
  | [], rest => some ([], rest)
  | _ :: _, [] => none
  | p :: ps, c :: cs =>
    if lcChar c = p then
      match ciDropKeep ps cs with
      | some (pre, rest) => some (c :: pre, rest)
      | none => none
    else none

/-- Case-insensitive literal match returning only the remainder. -/
def ciDrop (pat : List Char) (s : List Char) : Option (List Char) :=
  match ciDropKeep pat s with
  | some (_, rest) => some rest
  | none => none

/-- Earliest case-insensitive occurrence of `pat`: the characters before it
and the characters after it (the lazy `([\s\S]*?)pat` idiom). -/
def findCi (pat : List Char) : List Char → Option (List Char × List Char)
  | [] =>
    match ciDrop pat [] with
    | some r => some ([], r)
    | none => none
  | c :: rest =>
    match ciDrop pat (c :: rest) with
    | some r => some ([], r)
    | none =>
      match findCi pat rest with
      | some (pre, r) => some (c :: pre, r)
      | none => none

/-- Leftmost-position search: the value of `f` at the first suffix where it
matches, scanning left to right (the non-global `String.match` semantics). -/
def firstSome (f : List Char → Option (List Char)) : List Char → Option (List Char)
  | [] => f []
  | c :: rest =>
    match f (c :: rest) with
    | some r => some r
    | none => firstSome f rest

/-- Global replace by a single character: wherever `matchAt` succeeds the
matched characters are replaced by `rep`, scanning left to right over
non-overlapping matches (the `String.replace(re, ' ')` semantics).  `fuel`
bounds the recursion; every embedded match consumes at least one character,
so `fuel = s.length` is always enough. -/
def replaceAll (matchAt : List Char → Option (List Char)) (rep : Char) :
    Nat → List Char → List Char
  | 0, s => s
  | _ + 1, [] => []
  | fuel + 1, c :: rest =>
    match matchAt (c :: rest) with
    | some r => rep :: replaceAll matchAt rep fuel r
    | none => c :: replaceAll matchAt rep fuel rest

/-- Global scan: all captures of `matchAt` over non-overlapping matches in
left-to-right order (the `String.match(/.../g)` and `exec` loop semantics). -/
def scanAll {α : Type} (matchAt : List Char → Option (α × List Char)) :
    Nat → List Char → List α
  | 0, _ => []
  | _ + 1, [] => []
  | fuel + 1, c :: rest =>
    match matchAt (c :: rest) with
    | some (a, r) => a :: scanAll matchAt fuel r
    | none => scanAll matchAt fuel rest

/-- Split on every match of `matchAt`, left to right (the `String.split(re)`
semantics; none of the embedded separators can match the empty string). -/
def splitAllGo (matchAt : List Char → Option (List Char)) :
    Nat → List Char → List Char → List (List Char)
  | 0, cur, s => [cur.reverse ++ s]
  | _ + 1, cur, [] => [cur.reverse]
  | fuel + 1, cur, c :: rest =>
    match matchAt (c :: rest) with
    | some r => cur.reverse :: splitAllGo matchAt fuel [] r
    | none => splitAllGo matchAt fuel (c :: cur) rest

/-- One whitespace run (`\s+`), for the whitespace-collapsing replace. -/
def wsRunAt (s : List Char) : Option (List Char) :=
  match s with
  | c :: rest => if isJsSpace c then some (rest.dropWhile isJsSpace) else none
  | [] => none

/-- One HTML tag (`<[^>]*>`): a `<`, characters other than `>`, then the
first `>` (the greedy `[^>]*` cannot cross a `>`). -/
def tagAt (s : List Char) : Option (List Char) :=
  match s with
  | '<' :: rest =>
    match findCi ['>'] rest with
    | some (_, after) => some after
    | none => none
  | _ => none

/-- One `&nbsp;` entity, case-insensitively. -/
def nbspAt (s : List Char) : Option (List Char) :=
  ciDrop ['&', 'n', 'b', 's', 'p', ';'] s

/-- One arrow separator (`\s*[-]+>\s*`): optional whitespace, one or more
hyphens, a `>`, optional whitespace. -/
def arrowMatchAt (s : List Char) : Option (List Char) :=
  match s.dropWhile isJsSpace with
  | '-' :: r1 =>
    match ('-' :: r1).dropWhile (fun c => c = '-') with
    | '>' :: r2 => some (r2.dropWhile isJsSpace)
    | _ => none
  | _ => none

/-- JavaScript `String.trim`. -/
def jsTrim (l : List Char) : List Char :=
  ((l.dropWhile isJsSpace).reverse.dropWhile isJsSpace).reverse

/-- The cleanup chain of the source applied to one captured HTML chunk:
`.replace(/<[^>]*>/g,' ').replace(/&nbsp;/gi,' ').replace(/\s+/g,' ').trim()`. -/
def cleanChunk (l : List Char) : List Char :=
  let a := replaceAll tagAt ' ' l.length l
  let b := replaceAll nbspAt ' ' a.length a
  let c := replaceAll wsRunAt ' ' b.length b
  jsTrim c

/-- The arrow-scrub `text.replace` of the source over `\s*[-]+>\s*`. -/
def arrowScrub (l : List Char) : List Char :=
  replaceAll arrowMatchAt ' ' l.length l

example : cleanChunk "  <b>Acme&nbsp;Pty</b>   Ltd ".data = "Acme Pty Ltd".data := by decide
example : arrowScrub "a -> b".data = "a b".data := by decide
example : jsTrim "  a b ".data = "a b".data := by decide
example : findCi "</td>".data "xy</TD>z".data = some ("xy".data, "z".data) := by decide

/-- An opening tag `<tag[^>]*>`, case-insensitively: the literal `<tag`,
characters other than `>`, then `>`; returns the remainder. -/
def openTagCi (tag : List Char) (s : List Char) : Option (List Char) :=
  match ciDrop ('<' :: tag) s with
  | some r =>
    match findCi ['>'] r with
    | some (_, after) => some after
    | none => none
  | none => none

/-- The `<th[^>]*>\s*LABEL\s*<\/th>\s*<td[^>]*>([\s\S]*?)<\/td>` pattern at one
position: `labelM` consumes the label, the lazy capture runs to the first
`</td>`; returns the captured cell HTML. -/
def thTdCaptureAt (labelM : List Char → Option (List Char)) (s : List Char) :
    Option (List Char) :=
  match openTagCi ['t', 'h'] s with
  | none => none
  | some r1 =>
    match labelM (r1.dropWhile isJsSpace) with
    | none => none
    | some r2 =>
      match ciDrop "</th>".data (r2.dropWhile isJsSpace) with
      | none => none
      | some r3 =>
        match openTagCi ['t', 'd'] (r3.dropWhile isJsSpace) with
        | none => none
        | some r4 =>
          match findCi "</td>".data r4 with
          | some (cap, _) => some cap
          | none => none

/-- The `extractTableValue(label)` helper of the source: the first `<th>label</th><td>…</td>`
row of the page, case-insensitively, with the captured cell cleaned to plain
text; the empty string when the row is absent. -/
def extractTableValue (label : String) (h : List Char) : String :=
  match firstSome (thTdCaptureAt (fun s => ciDrop (label.data.map lcChar) s)) h with
  | some cap => String.mk (cleanChunk cap)
  | none => ""

/-- The label `Trademark\s*Owner` of the owner row. -/
def ownerLabelAt (s : List Char) : Option (List Char) :=
  match ciDrop "trademark".data s with
  | some r => ciDrop "owner".data (r.dropWhile isJsSpace)
  | none => none

/-- One `<div[^>]*>([\s\S]*?)<\/div>` sub-block, for the owner cell scan. -/
def divMatchAt (s : List Char) : Option (List Char × List Char) :=
  match openTagCi ['d', 'i', 'v'] s with
  | none => none
  | some r1 => findCi "</div>".data r1

/-- One alternative of the owner split pattern
`\s*[-]+>\s*|\s*→\s*|\s*&gt;\s*`, tried in the source order. -/
def altArrowAt (s : List Char) : Option (List Char) :=
  match arrowMatchAt s with
  | some r => some r
  | none =>
    match s.dropWhile isJsSpace with
    | c :: r2 =>
      if c = Char.ofNat 8594 then some (r2.dropWhile isJsSpace)
      else
        match ciDrop "&gt;".data (c :: r2) with
        | some r3 => some (r3.dropWhile isJsSpace)
        | none => none
    | [] => none

/-- The owner-name and owner-address extraction of `parseDetail`: find the
`Trademark Owner` cell, split it into `<div>` sub-blocks, and otherwise fall
back to cleaning the whole cell and splitting on an arrow separator. -/
def ownerOf (h : List Char) : String × String :=
  match firstSome (thTdCaptureAt ownerLabelAt) h with
  | none => ("", "")
  | some tdHtml =>
    let parts := ((scanAll divMatchAt tdHtml.length tdHtml).map
      (fun cap => arrowScrub (cleanChunk cap))).filter (fun t => t ≠ [])
    match parts with
    | p0 :: rest =>
      (String.mk p0,
       if rest = [] then "" else String.mk (List.intercalate [' '] rest))
    | [] =>
      let cleaned := cleanChunk tdHtml
      let segs := (splitAllGo altArrowAt cleaned.length [] cleaned).filter
        (fun t => t ≠ [])
      match segs with
      | s0 :: rest =>
        (String.mk (jsTrim s0),
         if rest = [] then ""
         else String.mk (jsTrim (List.intercalate [' '] rest)))
      | [] => (String.mk (jsTrim (arrowScrub cleaned)), "")

/-- Whether `ciDrop w` succeeds here and the next character is whitespace:
the tail of the `\sWORD\s` presence test. -/
def wordThenWs (w : List Char) (s : List Char) : Bool :=
  match ciDrop w s with
  | some (c :: _) => isJsSpace c
  | _ => false

/-- The `/\sWORD\s/i.test(html)` presence check of the source: some position
holds whitespace, the word case-insensitively, then whitespace. -/
def wsWordWs (w : List Char) : List Char → Bool
  | [] => false
  | c :: rest => (isJsSpace c && wordThenWs w rest) || wsWordWs w rest

/-- Backtracking tail of `\s+([^<\n]+)`: `run` is the maximal whitespace run,
`rest` what follows it; try giving `\s+` the longest prefix of `run` first,
and capture the maximal `[^<\n]+` from what remains. -/
def backtrackCap : Nat → List Char → List Char → Option (List Char)
  | 0, _, _ => none
  | i + 1, run, rest =>
    match run.drop (i + 1) ++ rest with
    | c :: cs =>
      if c = '<' ∨ c = '\n' then backtrackCap i run rest
      else some ((c :: cs).takeWhile (fun d => ¬(d = '<' ∨ d = '\n')))
    | [] => backtrackCap i run rest

/-- The `/Current\s+Status\s+([^<\n]+)/i` pattern at one position; returns
the capture. -/
def descMatchAt (s : List Char) : Option (List Char) :=
  match ciDrop "current".data s with
  | none => none
  | some r1 =>
    match r1 with
    | c :: r2 =>
      if isJsSpace c then
        match ciDrop "status".data (r2.dropWhile isJsSpace) with
        | none => none
        | some r3 =>
          let run := r3.takeWhile isJsSpace
          let rest := r3.drop run.length
          if run = [] then none else backtrackCap run.length run rest
      else none
    | [] => none

/-- The `statusDesc` field: the first `Current Status …` match, trimmed. -/
def statusDescOf (h : List Char) : String :=
  match firstSome descMatchAt h with
  | some cap => String.mk (jsTrim cap)
  | none => ""

/-- One `Class\s*(\d{3})` match: the literal `Class`, optional whitespace,
and exactly three digits (the capture). -/
def classMatchAt (s : List Char) : Option (List Char × List Char) :=
  match ciDrop "class".data s with
  | none => none
  | some r1 =>
    match r1.dropWhile isJsSpace with
    | a :: b :: c :: rest =>
      if isAsciiDigit a && isAsciiDigit b && isAsciiDigit c then
        some ([a, b, c], rest)
      else none
    | _ => none

/-- Insertion into a JavaScript `Set`: keep the list unchanged when the
element is present, append it otherwise. -/
def insertNew (acc : List String) (x : String) : List String :=
  if x ∈ acc then acc else acc ++ [x]

/-- The `Array.from(new Set(l))` conversion: duplicates collapsed, first occurrence wins,
first-occurrence order preserved. -/
def jsSetDedup (l : List String) : List String :=
  l.foldl insertNew []

example : extractTableValue "Word Mark" "<table><th >Word Mark</th> <td>Dragon <b>Train</b></td></table>".data = "Dragon Train" := by decide
example : ownerOf "<th>Trademark Owner</th><td>Acme Pty Ltd -> 1 Main St, Sydney</td>".data = ("Acme Pty Ltd", "1 Main St, Sydney") := by decide
example : ownerOf "<th>Trademark Owner</th><td><div>Acme -> Pty</div><div>1 Main St</div></td>".data = ("Acme Pty", "1 Main St") := by decide
example : wsWordWs "live".data " LIVE x".data = true := by decide
example : wsWordWs "live".data ">LIVE<".data = false := by decide
example : statusDescOf "ab Current Status  Registered<td>".data = "Registered" := by decide
example : jsSetDedup ["a", "b", "a", "c", "b"] = ["a", "b", "c"] := by decide
example : (scanAll classMatchAt 30 "Class 009 and class041x".data).map String.mk = ["009", "041"] := by decide

/-- The literal stem of the detail-link pattern
`\/australia\/trademark\/trademark-detail\/\d+\/[^"'>]+`. -/
def linkStemLit : List Char := "/australia/trademark/trademark-detail/".data

/-- A character the final `[^"'>]+` class accepts. -/
def notQuoteGt (c : Char) : Bool :=
  if c = '"' ∨ c = Char.ofNat 39 ∨ c = '>' then false else true

/-- The detail-link pattern at one position: the stem case-insensitively, one
or more digits, a `/`, then one or more characters outside `"`, the single
quote and `>`; returns the matched text (original case) and the remainder. -/
def linkMatchAt (s : List Char) : Option (List Char × List Char) :=
  match ciDropKeep linkStemLit s with
  | none => none
  | some (pre, r1) =>
    let ds := r1.takeWhile isAsciiDigit
    let r2 := r1.drop ds.length
    if ds = [] then none
    else
      match r2 with
      | '/' :: r3 =>
        let tl := r3.takeWhile notQuoteGt
        let r4 := r3.drop tl.length
        if tl = [] then none else some (pre ++ ds ++ '/' :: tl, r4)
      | _ => none

/-- All raw matches of the detail-link pattern, in order (`html.match(re) || []`). -/
def linkMatches (html : String) : List String :=
  (scanAll linkMatchAt html.data.length html.data).map String.mk

/-- The `extractDetailLinks` function of the source: the raw matches with duplicates
collapsed through a `Set`, first occurrence winning. -/
def extractDetailLinks (html : String) : List String :=
  jsSetDedup (linkMatches html)

/-- The shape every string matched by the detail-link pattern has: the stem
case-insensitively, at least one digit, a slash, then at least one character
outside `"`, the single quote and `>`. -/
def linkShape (m : List Char) : Bool :=
  match ciDrop linkStemLit m with
  | none => false
  | some r =>
    let ds := r.takeWhile isAsciiDigit
    match r.drop ds.length with
    | '/' :: r3 => decide (ds ≠ []) && decide (r3 ≠ []) && r3.all notQuoteGt
    | _ => false

example : extractDetailLinks "" = [] := by decide
example : extractDetailLinks "x\"/australia/trademark/trademark-detail/12/ab\" /AUSTRALIA/trademark/trademark-detail/9/q>/australia/trademark/trademark-detail/12/ab\"" =
    ["/australia/trademark/trademark-detail/12/ab", "/AUSTRALIA/trademark/trademark-detail/9/q"] := by decide

/-- One detail record, as the JavaScript objects of the source: a field
holds `none` when the property is absent from the object. -/
structure DetailRecord where
  applicationNumber : Option String := none
  wordMark : Option String := none
  ownerName : Option String := none
  ownerAddress : Option String := none
  owner : Option String := none
  filingDate : Option String := none
  status : Option String := none
  statusDesc : Option String := none
  classes : Option (List String) := none
  detailUrl : Option String := none
  error : Option String := none
deriving DecidableEq

/-- The `parseDetail` function of the source: every field extracted best-effort from the
page markup; the returned object carries all parsed properties and no
`detailUrl` (the caller attaches it) and no `error`. -/
def parseDetail (html : String) : DetailRecord :=
  let h := html.data
  let ownerPair := ownerOf h
  let status :=
    if wsWordWs "live".data h then "LIVE"
    else if wsWordWs "dead".data h then "DEAD"
    else ""
  let classes := jsSetDedup ((scanAll classMatchAt h.length h).map String.mk)
  { applicationNumber := some (extractTableValue "Application Number" h),
    wordMark := some (extractTableValue "Word Mark" h),
    ownerName := some ownerPair.1,
    ownerAddress := some ownerPair.2,
    owner := some (if ownerPair.2 = "" then ownerPair.1
      else ownerPair.1 ++ ", " ++ ownerPair.2),
    filingDate := some (extractTableValue "Filing Date" h),
    status := some status,
    statusDesc := some (statusDescOf h),
    classes := some classes,
    detailUrl := none,
    error := none }

example : (parseDetail "<th>Trademark Owner</th><td>Acme Pty Ltd -> 1 Main St, Sydney</td>").owner = some "Acme Pty Ltd, 1 Main St, Sydney" := by decide
example : (parseDetail "st LIVE nd Class 028").status = some "LIVE" := by decide
example : (parseDetail "st LIVE nd Class 028").classes = some ["028"] := by decide

/-- A character `encodeURIComponent` leaves unescaped. -/
def isUnreservedUri (c : Char) : Bool :=
  if ('A' ≤ c ∧ c ≤ 'Z') ∨ ('a' ≤ c ∧ c ≤ 'z') ∨ ('0' ≤ c ∧ c ≤ '9') ∨
      c = '-' ∨ c = '_' ∨ c = '.' ∨ c = '!' ∨ c = '~' ∨ c = '*' ∨
      c = Char.ofNat 39 ∨ c = '(' ∨ c = ')' then true else false

/-- Upper-case hexadecimal digit of a value below 16. -/
def hexChar (n : Nat) : Char :=
  if n < 10 then Char.ofNat (48 + n) else Char.ofNat (55 + n)

/-- The UTF-8 bytes of a code point. -/
def utf8Bytes (n : Nat) : List Nat :=
  if n < 128 then [n]
  else if n < 2048 then [192 + n / 64, 128 + n % 64]
  else if n < 65536 then [224 + n / 4096, 128 + n / 64 % 64, 128 + n % 64]
  else [240 + n / 262144, 128 + n / 4096 % 64, 128 + n / 64 % 64, 128 + n % 64]

/-- JavaScript `encodeURIComponent`: unreserved characters kept, every other
character percent-encoded byte by byte. -/
def encodeURIComponent (s : String) : String :=
  String.mk (s.data.foldr
    (fun c acc =>
      (if isUnreservedUri c then [c]
       else (utf8Bytes c.toNat).foldr
         (fun b a => '%' :: hexChar (b / 16) :: hexChar (b % 16) :: a) []) ++ acc)
    [])

example : encodeURIComponent "Dragon Train" = "Dragon%20Train" := by decide

/-- Association-list lookup, the JavaScript object property read. -/
def alLookup {α : Type} : List (String × α) → String → Option α
  | [], _ => none
  | (k, v) :: t, u => if k = u then some v else alLookup t u

/-- Association-list write, the JavaScript object property assignment: an
existing key is updated in place, a new key is appended. -/
def alInsert {α : Type} : List (String × α) → String → α → List (String × α)
  | [], u, r => [(u, r)]
  | (k, v) :: t, u, r => if k = u then (k, r) :: t else (k, v) :: alInsert t u r

/-- The `detailCache` mapping of one name's cache file: detail URL to record. -/
abbrev CacheMap := List (String × DetailRecord)

/-- The durable cache directory: one `detailCache` mapping per cache file,
keyed as `loadCache`/`saveCache` key the files, by the URI-encoded name. -/
abbrev Store := List (String × CacheMap)

/-- The `loadCache` read followed by the `cache.detailCache` read of `processName`: the
stored mapping for this name, or the empty mapping when absent. -/
def loadCacheMap (store : Store) (name : String) : CacheMap :=
  (alLookup store (encodeURIComponent name)).getD []

/-- The `saveCache` write of the source: overwrite the blob of this name with the mapping. -/
def saveCacheMap (store : Store) (name : String) (m : CacheMap) : Store :=
  alInsert store (encodeURIComponent name) m

/-- The outbound fetch capability: `fetchPage` resolved to the page text, or
the message of the error it throws. -/
structure FetchEnv where
  fetch : String → Except String String

/-- The `baseUrl` of `processName`. -/
def baseUrl : String := "https://www.trademarkelite.com"

/-- The search-page URL `processName` always fetches for a name. -/
def searchUrlOf (name : String) : String :=
  baseUrl ++ "/australia/trademark/trademark-search.aspx?sw=" ++
    encodeURIComponent name

/-- JavaScript truthiness of an optional string property: absent and the
empty string are falsy. -/
def jsFalsy : Option String → Bool
  | none => true
  | some s => s = ""

/-- The per-name result object `processName` resolves with. -/
structure SearchResult where
  score : String
  explanation : String
  details : List DetailRecord
deriving DecidableEq

deriving instance DecidableEq for Except

/-- The error-only record pushed when one detail page fails. -/
def errorRecord (msg : String) : DetailRecord :=
  { error := some ("Error processing detail page: " ++ msg) }

/-- The mutable state of the detail-link loop of `processName`. -/
structure LoopState where
  details : List DetailRecord
  hasLive : Bool
  hasRedMark : Bool
  cached : CacheMap
  fetched : List String
deriving DecidableEq

/-- The `if (info.status === 'LIVE')` block of the loop: reading
`info.classes.includes(…)` on an object without a `classes` property throws,
exactly as the source does. -/
def updateFlags (hasLive hasRedMark : Bool) (info : DetailRecord) :
    Except String (Bool × Bool) :=
  if info.status = some "LIVE" then
    match info.classes with
    | none => .error "TypeError: Cannot read properties of undefined (reading includes)"
    | some cs =>
      .ok (true, hasRedMark ||
        (cs.contains "009" || cs.contains "028" || cs.contains "041"))
  else .ok (hasLive, hasRedMark)

/-- One iteration of the detail-link loop of `processName`: reuse the cached
record (back-filling a falsy `detailUrl`, a mutation the cache entry shares),
or fetch and parse the page, caching the parsed record; a fetch failure
appends an error-only record and caches nothing. -/
def stepLink (env : FetchEnv) (st : LoopState) (relLink : String) :
    Except String LoopState :=
  let url := baseUrl ++ relLink
  match alLookup st.cached url with
  | some info0 =>
    let info := if jsFalsy info0.detailUrl then { info0 with detailUrl := some url }
      else info0
    let cached1 := if jsFalsy info0.detailUrl then alInsert st.cached url info
      else st.cached
    match updateFlags st.hasLive st.hasRedMark info with
    | .error e => .error e
    | .ok fl =>
      .ok { details := st.details ++ [info], hasLive := fl.1, hasRedMark := fl.2,
            cached := cached1, fetched := st.fetched }
  | none =>
    match env.fetch url with
    | .error e =>
      .ok { details := st.details ++ [errorRecord e], hasLive := st.hasLive,
            hasRedMark := st.hasRedMark, cached := st.cached,
            fetched := st.fetched ++ [url] }
    | .ok html =>
      let info := { parseDetail html with detailUrl := some url }
      match updateFlags st.hasLive st.hasRedMark info with
      | .error e => .error e
      | .ok fl =>
        .ok { details := st.details ++ [info], hasLive := fl.1, hasRedMark := fl.2,
              cached := alInsert st.cached url info,
              fetched := st.fetched ++ [url] }

/-- The whole detail-link loop; an uncaught exception carries the detail
URLs fetched before it. -/
def runLinks (env : FetchEnv) : List String → LoopState →
    Except (String × List String) LoopState
  | [], st => .ok st
  | rel :: rest, st =>
    match stepLink env st rel with
    | .error e => .error (e, st.fetched)
    | .ok st1 => runLinks env rest st1

/-- Everything one `processName(name)` call did: the resolved result or the
thrown message, the cache directory afterwards, the detail URLs it fetched,
and the names whose cache files it read and wrote. -/
structure NameOutcome where
  result : Except String SearchResult
  store2 : Store
  detailFetches : List String
  cacheReads : List String
  cacheWrites : List String
deriving DecidableEq

/-- The three scoring branches of `processName`, over the final flags. -/
def scoreOfFlags (hasLive hasRedMark : Bool) : String × String :=
  if !hasLive then
    ("Green", "No live trademark registrations were found for this name.")
  else if hasRedMark then
    ("Red", "At least one live filing lists classes 009, 028 or 041.")
  else
    ("Yellow", "Live filings exist, but none contain 009, 028 or 041.")

/-- The `processName` function of the source: fetch the search page, extract detail links,
load this name's cache, walk the links reusing or fetching each detail page,
save the updated cache, and score the aggregated records. -/
def processName (env : FetchEnv) (store : Store) (name : String) : NameOutcome :=
  match env.fetch (searchUrlOf name) with
  | .error e =>
    { result := .error e, store2 := store, detailFetches := [],
      cacheReads := [], cacheWrites := [] }
  | .ok searchHtml =>
    let detailLinks := extractDetailLinks searchHtml
    let cached0 := loadCacheMap store name
    match runLinks env detailLinks
        { details := [], hasLive := false, hasRedMark := false,
          cached := cached0, fetched := [] } with
    | .error ef =>
      { result := .error ef.1, store2 := store, detailFetches := ef.2,
        cacheReads := [name], cacheWrites := [] }
    | .ok stF =>
      { result := .ok { score := (scoreOfFlags stF.hasLive stF.hasRedMark).1,
                        explanation := (scoreOfFlags stF.hasLive stF.hasRedMark).2,
                        details := stF.details },
        store2 := saveCacheMap store name stF.cached,
        detailFetches := stF.fetched,
        cacheReads := [name], cacheWrites := [name] }

/-- What the request handler stores for one name: the resolved result, or
`{error: err.message}` when `processName` rejected. -/
inductive NameResult where
  | ok (r : SearchResult)
  | err (msg : String)
deriving DecidableEq

/-- One iteration of the handler's name loop: `try { … } catch { {error} }`. -/
def runName (env : FetchEnv) (store : Store) (name : String) :
    NameResult × Store :=
  match processName env store name with
  | o =>
    match o.result with
    | .ok r => (.ok r, o.store2)
    | .error e => (.err e, o.store2)

/-- The handler's loop over the parsed name list, in order, threading the
cache directory; returns the `(name, result)` assignments it performed. -/
def processList (env : FetchEnv) : Store → List String →
    List (String × NameResult) × Store
  | store, [] => ([], store)
  | store, n :: rest =>
    let r := runName env store n
    let t := processList env r.2 rest
    ((n, r.1) :: t.1, t.2)

/-- The batch split `names.split(/[\n,]+/)`: segments between maximal runs
of commas and newlines. -/
def splitRunsGo (acc : List (List Char)) (cur : List Char) (inSep : Bool) :
    List Char → List (List Char)
  | [] => acc ++ [cur.reverse]
  | c :: rest =>
    if c = ',' ∨ c = '\n' then
      if inSep then splitRunsGo acc cur true rest
      else splitRunsGo (acc ++ [cur.reverse]) [] true rest
    else splitRunsGo acc (c :: cur) false rest

/-- The handler's name-list parsing:
`names.split(/[\n,]+/).map(s => s.trim()).filter(Boolean)`. -/
def parseNames (s : String) : List String :=
  ((splitRunsGo [] [] false s.data).map (fun l => String.mk (jsTrim l))).filter
    (fun x => x ≠ "")

/-- The response object: every `(name, result)` assignment applied in order
to an initially empty object, later assignments overwriting earlier ones. -/
def respond (calls : List (String × NameResult)) : List (String × NameResult) :=
  calls.foldl (fun m p => alInsert m p.1 p.2) []

example : parseNames " a,, b \n,a " = ["a", "b", "a"] := by decide

/-- Position of the first occurrence of `x` (length of the list when absent). -/
def firstIdx (x : String) : List String → Nat
  | [] => 0
  | y :: t => if y = x then 0 else firstIdx x t + 1

/-- Reference recursion for `jsSetDedup`: keep each element not seen before. -/
def dedupF (seen : List String) : List String → List String
  | [] => []
  | x :: t => if x ∈ seen then dedupF seen t else x :: dedupF (x :: seen) t

theorem dedupF_congr : ∀ (l s₁ s₂ : List String),
    (∀ y, y ∈ s₁ ↔ y ∈ s₂) → dedupF s₁ l = dedupF s₂ l := by
  intro l
  induction l with
  | nil => intro s₁ s₂ _; rfl
  | cons x t ih =>
    intro s₁ s₂ h
    simp only [dedupF]
    by_cases hx : x ∈ s₁
    · rw [if_pos hx, if_pos ((h x).mp hx), ih s₁ s₂ h]
    · rw [if_neg hx, if_neg (fun hc => hx ((h x).mpr hc))]
      rw [ih (x :: s₁) (x :: s₂) (fun y => by simp [h y])]

theorem foldl_insertNew_eq : ∀ (l acc : List String),
    l.foldl insertNew acc = acc ++ dedupF acc l := by
  intro l
  induction l with
  | nil => intro acc; simp [dedupF]
  | cons x t ih =>
    intro acc
    simp only [List.foldl_cons, dedupF]
    by_cases hx : x ∈ acc
    · rw [if_pos hx]
      have : insertNew acc x = acc := by simp [insertNew, hx]
      rw [this, ih acc]
    · rw [if_neg hx]
      have h1 : insertNew acc x = acc ++ [x] := by simp [insertNew, hx]
      rw [h1, ih (acc ++ [x])]
      rw [dedupF_congr t (acc ++ [x]) (x :: acc) (fun y => by simp; tauto)]
      simp

theorem mem_dedupF : ∀ (l seen : List String) (x : String),
    x ∈ dedupF seen l ↔ (x ∈ l ∧ x ∉ seen) := by
  intro l
  induction l with
  | nil => intro seen x; simp [dedupF]
  | cons y t ih =>
    intro seen x
    simp only [dedupF]
    by_cases hy : y ∈ seen
    · rw [if_pos hy, ih seen x]
      constructor
      · rintro ⟨hxt, hxs⟩; exact ⟨List.mem_cons_of_mem _ hxt, hxs⟩
      · rintro ⟨hxl, hxs⟩
        rcases List.mem_cons.mp hxl with h | h
        · exact absurd (h ▸ hy) hxs
        · exact ⟨h, hxs⟩
    · rw [if_neg hy]
      constructor
      · intro hx
        rcases List.mem_cons.mp hx with h | h
        · exact ⟨h ▸ List.mem_cons_self y t, h ▸ hy⟩
        · obtain ⟨hxt, hxs⟩ := (ih (y :: seen) x).mp h
          refine ⟨List.mem_cons_of_mem _ hxt, fun hc => hxs (List.mem_cons_of_mem _ hc)⟩
      · rintro ⟨hxl, hxs⟩
        by_cases hxy : x = y
        · exact hxy ▸ List.mem_cons_self y _
        · rcases List.mem_cons.mp hxl with h | h
          · exact absurd h hxy
          · exact List.mem_cons_of_mem _ ((ih (y :: seen) x).mpr
              ⟨h, fun hc => (List.mem_cons.mp hc).elim hxy hxs⟩)

theorem nodup_dedupF : ∀ (l seen : List String), (dedupF seen l).Nodup := by
  intro l
  induction l with
  | nil => intro seen; simp [dedupF]
  | cons y t ih =>
    intro seen
    simp only [dedupF]
    by_cases hy : y ∈ seen
    · rw [if_pos hy]; exact ih seen
    · rw [if_neg hy]
      refine List.nodup_cons.mpr ⟨fun hc => ?_, ih (y :: seen)⟩
      exact ((mem_dedupF t (y :: seen) y).mp hc).2 (List.mem_cons_self y seen)

theorem firstIdx_cons_ne (x y : String) (t : List String) (h : y ≠ x) :
    firstIdx x (y :: t) = firstIdx x t + 1 := by
  simp [firstIdx, h]

theorem pairwise_dedupF : ∀ (l seen : List String),
    (dedupF seen l).Pairwise (fun a b => firstIdx a l < firstIdx b l) := by
  intro l
  induction l with
  | nil => intro seen; simp [dedupF]
  | cons y t ih =>
    intro seen
    simp only [dedupF]
    by_cases hy : y ∈ seen
    · rw [if_pos hy]
      have base := ih seen
      refine List.Pairwise.imp_of_mem ?_ base
      intro a b ha hb hab
      have hay : a ≠ y := fun hc =>
        ((mem_dedupF t seen a).mp ha).2 (hc ▸ hy)
      have hby : b ≠ y := fun hc =>
        ((mem_dedupF t seen b).mp hb).2 (hc ▸ hy)
      rw [firstIdx_cons_ne a y t (fun hc => hay hc.symm),
        firstIdx_cons_ne b y t (fun hc => hby hc.symm)]
      omega
    · rw [if_neg hy]
      refine List.pairwise_cons.mpr ⟨?_, ?_⟩
      · intro b hb
        have hby : b ≠ y := fun hc =>
          ((mem_dedupF t (y :: seen) b).mp hb).2 (hc ▸ List.mem_cons_self y seen)
        rw [firstIdx_cons_ne b y t (fun hc => hby hc.symm)]
        simp [firstIdx]
      · have base := ih (y :: seen)
        refine List.Pairwise.imp_of_mem ?_ base
        intro a b ha hb hab
        have hay : a ≠ y := fun hc =>
          ((mem_dedupF t (y :: seen) a).mp ha).2 (hc ▸ List.mem_cons_self y seen)
        have hby : b ≠ y := fun hc =>
          ((mem_dedupF t (y :: seen) b).mp hb).2 (hc ▸ List.mem_cons_self y seen)
        rw [firstIdx_cons_ne a y t (fun hc => hay hc.symm),
          firstIdx_cons_ne b y t (fun hc => hby hc.symm)]
        omega

theorem jsSetDedup_eq_dedupF (l : List String) : jsSetDedup l = dedupF [] l := by
  rw [jsSetDedup, foldl_insertNew_eq]; rfl

theorem mem_jsSetDedup (l : List String) (x : String) :
    x ∈ jsSetDedup l ↔ x ∈ l := by
  rw [jsSetDedup_eq_dedupF, mem_dedupF]; simp

theorem nodup_jsSetDedup (l : List String) : (jsSetDedup l).Nodup := by
  rw [jsSetDedup_eq_dedupF]; exact nodup_dedupF l []

theorem pairwise_jsSetDedup (l : List String) :
    (jsSetDedup l).Pairwise (fun a b => firstIdx a l < firstIdx b l) := by
  rw [jsSetDedup_eq_dedupF]; exact pairwise_dedupF l []

theorem ciDropKeep_sound : ∀ (pat s pre rest : List Char),
    ciDropKeep pat s = some (pre, rest) →
    pre.map lcChar = pat ∧ s = pre ++ rest := by
  intro pat
  induction pat with
  | nil =>
    intro s pre rest h
    simp only [ciDropKeep] at h
    cases h; simp
  | cons p ps ih =>
    intro s pre rest h
    cases s with
    | nil => simp [ciDropKeep] at h
    | cons c cs =>
      simp only [ciDropKeep] at h
      by_cases hc : lcChar c = p
      · rw [if_pos hc] at h
        cases h1 : ciDropKeep ps cs with
        | none => rw [h1] at h; simp at h
        | some pr =>
          rw [h1] at h
          obtain ⟨pre1, rest1⟩ := pr
          simp only [Option.some.injEq, Prod.mk.injEq] at h
          obtain ⟨hp, hr⟩ := h
          subst hp
          subst hr
          obtain ⟨hm, he⟩ := ih cs pre1 rest1 h1
          constructor
          · simp [hm, hc]
          · simp [he]
      · rw [if_neg hc] at h; simp at h

theorem ciDropKeep_complete : ∀ (pre rest : List Char),
    ciDropKeep (pre.map lcChar) (pre ++ rest) = some (pre, rest) := by
  intro pre
  induction pre with
  | nil => intro rest; simp [ciDropKeep]
  | cons c cs ih => intro rest; simp [ciDropKeep, ih rest]

theorem takeWhile_middle (p : Char → Bool) :
    ∀ (a : List Char) (x : Char) (b : List Char),
    (∀ c ∈ a, p c = true) → p x = false →
    (a ++ x :: b).takeWhile p = a := by
  intro a
  induction a with
  | nil => intro x b _ hx; simp [List.takeWhile, hx]
  | cons c cs ih =>
    intro x b ha hx
    have hc : p c = true := ha c (List.mem_cons_self c cs)
    simp only [List.cons_append, List.takeWhile, hc]
    congr 1
    exact ih x b (fun d hd => ha d (List.mem_cons_of_mem c hd)) hx

theorem takeWhile_all (p : Char → Bool) :
    ∀ (a : List Char), (∀ c ∈ a, p c = true) → a.takeWhile p = a := by
  intro a
  induction a with
  | nil => intro _; rfl
  | cons c cs ih =>
    intro ha
    have hc : p c = true := ha c (List.mem_cons_self c cs)
    simp only [List.takeWhile, hc]
    rw [ih (fun d hd => ha d (List.mem_cons_of_mem c hd))]

theorem linkMatchAt_shape (s m r : List Char) (h : linkMatchAt s = some (m, r)) :
    linkShape m = true := by
  unfold linkMatchAt at h
  cases h1 : ciDropKeep linkStemLit s with
  | none => rw [h1] at h; simp at h
  | some pr =>
    rw [h1] at h
    obtain ⟨pre, r1⟩ := pr
    simp only at h
    by_cases hds : r1.takeWhile isAsciiDigit = []
    · rw [if_pos hds] at h; simp at h
    · rw [if_neg hds] at h
      cases h2 : r1.drop (r1.takeWhile isAsciiDigit).length with
      | nil => rw [h2] at h; simp at h
      | cons c2 r3 =>
        rw [h2] at h
        by_cases hsl : c2 = '/'
        · subst hsl
          simp only at h
          by_cases htl : r3.takeWhile notQuoteGt = []
          · rw [if_pos htl] at h; simp at h
          · rw [if_neg htl] at h
            simp only [Option.some.injEq, Prod.mk.injEq] at h
            obtain ⟨hm, _⟩ := h
            obtain ⟨hmap, _⟩ := ciDropKeep_sound linkStemLit s pre r1 h1
            have hdig : ∀ c ∈ r1.takeWhile isAsciiDigit, isAsciiDigit c = true :=
              fun c hc => List.mem_takeWhile_imp hc
            have hqg : ∀ c ∈ r3.takeWhile notQuoteGt, notQuoteGt c = true :=
              fun c hc => List.mem_takeWhile_imp hc
            rw [linkShape, ← hm]
            have hkeep := ciDropKeep_complete pre
              ((r1.takeWhile isAsciiDigit) ++ '/' :: r3.takeWhile notQuoteGt)
            rw [hmap] at hkeep
            have hassoc : pre ++ (r1.takeWhile isAsciiDigit) ++
                '/' :: r3.takeWhile notQuoteGt =
                pre ++ ((r1.takeWhile isAsciiDigit) ++
                  '/' :: r3.takeWhile notQuoteGt) := by simp
            rw [hassoc, ciDrop, hkeep]
            simp only
            have hslash : isAsciiDigit '/' = false := by decide
            rw [takeWhile_middle isAsciiDigit _ _ _ hdig hslash]
            rw [List.drop_left]
            simp [hds, htl, List.all_eq_true, hqg]
        · simp [hsl] at h

theorem scanAll_mem {α : Type} (f : List Char → Option (α × List Char)) :
    ∀ (fuel : Nat) (s : List Char) (a : α),
    a ∈ scanAll f fuel s → ∃ s0 r, f s0 = some (a, r) := by
  intro fuel
  induction fuel with
  | zero => intro s a h; simp [scanAll] at h
  | succ n ih =>
    intro s a h
    cases s with
    | nil => simp [scanAll] at h
    | cons c rest =>
      simp only [scanAll] at h
      cases h1 : f (c :: rest) with
      | none => rw [h1] at h; exact ih rest a h
      | some br =>
        rw [h1] at h
        obtain ⟨b, r⟩ := br
        rcases List.mem_cons.mp h with he | ht
        · exact ⟨c :: rest, r, he ▸ h1⟩
        · exact ih r a ht
example : (processName ⟨fun _ => .ok ""⟩ [] "n").result =
    .ok { score := "Green",
          explanation := "No live trademark registrations were found for this name.",
          details := [] } := by decide

/-- C4: for every search-results markup string, `extractDetailLinks` returns
the distinct detail-page paths matching the fixed path-prefix pattern, in
deterministic first-occurrence order with duplicates collapsed (first
occurrence wins), and returns an empty sequence, not an error, for empty
input or input with no matches. -/
theorem extractDetailLinks_correct :
    extractDetailLinks "" = [] ∧
    (∀ html, linkMatches html = [] → extractDetailLinks html = []) ∧
    (∀ html, (extractDetailLinks html).Nodup) ∧
    (∀ html x, x ∈ extractDetailLinks html ↔ x ∈ linkMatches html) ∧
    (∀ html, (extractDetailLinks html).Pairwise
      (fun a b => firstIdx a (linkMatches html) < firstIdx b (linkMatches html))) ∧
    (∀ html x, x ∈ extractDetailLinks html → linkShape x.data = true) := by
  refine ⟨by decide, ?_, ?_, ?_, ?_, ?_⟩
  · intro html h
    rw [extractDetailLinks, h]
    rfl
  · intro html
    exact nodup_jsSetDedup _
  · intro html x
    exact mem_jsSetDedup _ x
  · intro html
    exact pairwise_jsSetDedup _
  · intro html x hx
    have hx2 : x ∈ linkMatches html := (mem_jsSetDedup _ x).mp hx
    rw [linkMatches] at hx2
    obtain ⟨l, hl, he⟩ := List.mem_map.mp hx2
    obtain ⟨s0, r, hm⟩ := scanAll_mem linkMatchAt _ _ l hl
    have hs := linkMatchAt_shape s0 l r hm
    rw [← he]
    exact hs

/-- Whether a record passes the `info.status === 'LIVE'` test of the loop. -/
def recordLiveB (d : DetailRecord) : Bool :=
  decide (d.status = some "LIVE")

/-- Whether a record is live and lists one of the flagged classes, as the
loop's `includes` checks read it. -/
def recordRedB (d : DetailRecord) : Bool :=
  recordLiveB d && ((d.classes.getD []).contains "009" ||
    (d.classes.getD []).contains "028" || (d.classes.getD []).contains "041")

/-- A record with `status` equal to `LIVE`. -/
def RecLive (d : DetailRecord) : Prop := d.status = some "LIVE"

/-- A live record whose classes list contains 009, 028 or 041. -/
def RecFlagged (d : DetailRecord) : Prop :=
  d.status = some "LIVE" ∧
    ∃ cs, d.classes = some cs ∧ ("009" ∈ cs ∨ "028" ∈ cs ∨ "041" ∈ cs)

theorem contains_mem (l : List String) (a : String) :
    l.contains a = true ↔ a ∈ l := by
  induction l with
  | nil => simp [List.contains]
  | cons x t ih => simp [List.contains] at ih ⊢

theorem recordLiveB_iff (d : DetailRecord) : recordLiveB d = true ↔ RecLive d := by
  simp [recordLiveB, RecLive]

theorem recordRedB_iff (d : DetailRecord) : recordRedB d = true ↔ RecFlagged d := by
  cases hc : d.classes with
  | none => simp [recordRedB, recordLiveB, RecFlagged, hc, List.contains]
  | some cs =>
    simp [recordRedB, recordLiveB, RecFlagged, hc, contains_mem]
    intro _
    tauto

theorem updateFlags_ok (hasLive hasRedMark : Bool) (info : DetailRecord)
    (fl : Bool × Bool) (h : updateFlags hasLive hasRedMark info = .ok fl) :
    fl.1 = (hasLive || recordLiveB info) ∧
    fl.2 = (hasRedMark || recordRedB info) := by
  unfold updateFlags at h
  by_cases hs : info.status = some "LIVE"
  · rw [if_pos hs] at h
    cases hc : info.classes with
    | none => rw [hc] at h; simp at h
    | some cs =>
      rw [hc] at h
      simp only [Except.ok.injEq] at h
      subst h
      simp [recordLiveB, recordRedB, hs, hc, Bool.or_assoc]
  · rw [if_neg hs] at h
    simp only [Except.ok.injEq] at h
    subst h
    simp [recordLiveB, recordRedB, hs]

theorem errorRecord_not_live (e : String) : recordLiveB (errorRecord e) = false := by
  simp [recordLiveB, errorRecord]

theorem errorRecord_not_red (e : String) : recordRedB (errorRecord e) = false := by
  simp [recordRedB, recordLiveB, errorRecord]

theorem stepLink_flags (env : FetchEnv) (st : LoopState) (rel : String)
    (st1 : LoopState) (h : stepLink env st rel = .ok st1)
    (hl : st.hasLive = st.details.any recordLiveB)
    (hr : st.hasRedMark = st.details.any recordRedB) :
    st1.hasLive = st1.details.any recordLiveB ∧
    st1.hasRedMark = st1.details.any recordRedB := by
  simp only [stepLink] at h
  cases hq : alLookup st.cached (baseUrl ++ rel) with
  | some info0 =>
    rw [hq] at h
    simp only at h
    cases hu : updateFlags st.hasLive st.hasRedMark
        (if jsFalsy info0.detailUrl then { info0 with detailUrl := some (baseUrl ++ rel) }
         else info0) with
    | error e => rw [hu] at h; simp at h
    | ok fl =>
      rw [hu] at h
      simp only [Except.ok.injEq] at h
      subst h
      obtain ⟨h1, h2⟩ := updateFlags_ok _ _ _ _ hu
      constructor
      · simp [h1, hl, List.any_append]
      · simp [h2, hr, List.any_append]
  | none =>
    rw [hq] at h
    cases hf : env.fetch (baseUrl ++ rel) with
    | error e =>
      rw [hf] at h
      simp only [Except.ok.injEq] at h
      subst h
      constructor
      · simp [hl, List.any_append, errorRecord_not_live]
      · simp [hr, List.any_append, errorRecord_not_red]
    | ok html =>
      rw [hf] at h
      simp only at h
      cases hu : updateFlags st.hasLive st.hasRedMark
          { parseDetail html with detailUrl := some (baseUrl ++ rel) } with
      | error e => rw [hu] at h; simp at h
      | ok fl =>
        rw [hu] at h
        simp only [Except.ok.injEq] at h
        subst h
        obtain ⟨h1, h2⟩ := updateFlags_ok _ _ _ _ hu
        constructor
        · simp [h1, hl, List.any_append]
        · simp [h2, hr, List.any_append]

theorem runLinks_flags (env : FetchEnv) :
    ∀ (links : List String) (st stF : LoopState),
    runLinks env links st = .ok stF →
    st.hasLive = st.details.any recordLiveB →
    st.hasRedMark = st.details.any recordRedB →
    stF.hasLive = stF.details.any recordLiveB ∧
    stF.hasRedMark = stF.details.any recordRedB := by
  intro links
  induction links with
  | nil =>
    intro st stF h hl hr
    simp only [runLinks, Except.ok.injEq] at h
    subst h
    exact ⟨hl, hr⟩
  | cons rel rest ih =>
    intro st stF h hl hr
    simp only [runLinks] at h
    cases hs : stepLink env st rel with
    | error e => rw [hs] at h; simp at h
    | ok st1 =>
      rw [hs] at h
      obtain ⟨h1, h2⟩ := stepLink_flags env st rel st1 hs hl hr
      exact ih st1 stF h h1 h2

theorem any_iff_exists_live (l : List DetailRecord) :
    l.any recordLiveB = true ↔ ∃ d ∈ l, RecLive d := by
  rw [List.any_eq_true]
  constructor
  · rintro ⟨d, hd, hp⟩; exact ⟨d, hd, (recordLiveB_iff d).mp hp⟩
  · rintro ⟨d, hd, hp⟩; exact ⟨d, hd, (recordLiveB_iff d).mpr hp⟩

theorem any_iff_exists_red (l : List DetailRecord) :
    l.any recordRedB = true ↔ ∃ d ∈ l, RecFlagged d := by
  rw [List.any_eq_true]
  constructor
  · rintro ⟨d, hd, hp⟩; exact ⟨d, hd, (recordRedB_iff d).mp hp⟩
  · rintro ⟨d, hd, hp⟩; exact ⟨d, hd, (recordRedB_iff d).mpr hp⟩

/-- C1: for every collection of detail records assembled for a name (reused
from cache plus freshly fetched), `processName` scores `Green` when no record
has status `LIVE`, `Red` when some `LIVE` record lists class 009, 028 or 041,
and `Yellow` otherwise, with the fixed explanation sentence of the taken
branch. -/
theorem processName_score (env : FetchEnv) (store : Store) (name : String)
    (r : SearchResult) (h : (processName env store name).result = .ok r) :
    ((¬ ∃ d ∈ r.details, RecLive d) →
      r.score = "Green" ∧
      r.explanation = "No live trademark registrations were found for this name.") ∧
    ((∃ d ∈ r.details, RecFlagged d) →
      r.score = "Red" ∧
      r.explanation = "At least one live filing lists classes 009, 028 or 041.") ∧
    (((∃ d ∈ r.details, RecLive d) ∧ ¬ ∃ d ∈ r.details, RecFlagged d) →
      r.score = "Yellow" ∧
      r.explanation = "Live filings exist, but none contain 009, 028 or 041.") := by
  simp only [processName] at h
  cases hf : env.fetch (searchUrlOf name) with
  | error e => rw [hf] at h; simp at h
  | ok searchHtml =>
    rw [hf] at h
    simp only at h
    cases hr : runLinks env (extractDetailLinks searchHtml)
        { details := [], hasLive := false, hasRedMark := false,
          cached := loadCacheMap store name, fetched := [] } with
    | error ef => rw [hr] at h; simp at h
    | ok stF =>
      rw [hr] at h
      simp only [Except.ok.injEq] at h
      obtain ⟨hl, hrm⟩ := runLinks_flags env (extractDetailLinks searchHtml) _ stF hr
        (by simp) (by simp)
      have hdet : r.details = stF.details := by rw [← h]
      have hsc : r.score = (scoreOfFlags stF.hasLive stF.hasRedMark).1 := by rw [← h]
      have hex : r.explanation = (scoreOfFlags stF.hasLive stF.hasRedMark).2 := by
        rw [← h]
      refine ⟨?_, ?_, ?_⟩
      · intro hno
        have : stF.details.any recordLiveB = false := by
          rcases hb : stF.details.any recordLiveB with _ | _
          · rfl
          · exact absurd ((any_iff_exists_live stF.details).mp hb)
              (by rw [← hdet] at *; exact hno)
        rw [hsc, hex, ← hl] at *
        simp [scoreOfFlags, hl ▸ this]
      · intro hyes
        have hred : stF.details.any recordRedB = true :=
          (any_iff_exists_red stF.details).mpr (hdet ▸ hyes)
        have hliv : stF.details.any recordLiveB = true := by
          obtain ⟨d, hd, hfl⟩ := hdet ▸ hyes
          exact (any_iff_exists_live stF.details).mpr ⟨d, hd, hfl.1⟩
        rw [hsc, hex]
        simp [scoreOfFlags, hl ▸ hliv, hrm ▸ hred, hl, hrm, hliv, hred]
      · rintro ⟨hyes, hno⟩
        have hliv : stF.details.any recordLiveB = true :=
          (any_iff_exists_live stF.details).mpr (hdet ▸ hyes)
        have hred : stF.details.any recordRedB = false := by
          rcases hb : stF.details.any recordRedB with _ | _
          · rfl
          · exact absurd ((any_iff_exists_red stF.details).mp hb)
              (by rw [← hdet] at *; exact hno)
        rw [hsc, hex]
        simp [scoreOfFlags, hl, hrm, hliv, hred]

/-- Witness for `processName_score` at a concrete run: a search page with no
detail links scores `Green` with the no-live-registrations sentence. -/
theorem processName_score_witness :
    ({ score := "Green",
       explanation := "No live trademark registrations were found for this name.",
       details := [] } : SearchResult).score = "Green" ∧
    ({ score := "Green",
       explanation := "No live trademark registrations were found for this name.",
       details := [] } : SearchResult).explanation =
      "No live trademark registrations were found for this name." :=
  (processName_score ⟨fun _ => .ok ""⟩ [] "name"
    { score := "Green",
      explanation := "No live trademark registrations were found for this name.",
      details := [] } (by decide)).1 (by simp)

/-- The risk classification as a function of the assembled records: the
flags the loop accumulates are exactly existential scans of the list. -/
def classifyScore (details : List DetailRecord) : String :=
  (scoreOfFlags (details.any recordLiveB) (details.any recordRedB)).1

/-- The explanation sentence belonging to `classifyScore`. -/
def classifyExplanation (details : List DetailRecord) : String :=
  (scoreOfFlags (details.any recordLiveB) (details.any recordRedB)).2

theorem any_perm {α : Type} (l₁ l₂ : List α) (h : l₁.Perm l₂) (p : α → Bool) :
    l₁.any p = l₂.any p := by
  cases h1 : l₁.any p <;> cases h2 : l₂.any p <;> try rfl
  · rw [List.any_eq_true] at h2
    obtain ⟨x, hx, hp⟩ := h2
    have hc : l₁.any p = true := List.any_eq_true.mpr ⟨x, h.mem_iff.mpr hx, hp⟩
    simp [h1] at hc
  · rw [List.any_eq_true] at h1
    obtain ⟨x, hx, hp⟩ := h1
    have hc : l₂.any p = true := List.any_eq_true.mpr ⟨x, h.mem_iff.mp hx, hp⟩
    simp [h2] at hc

theorem processName_result_classify (env : FetchEnv) (store : Store)
    (name : String) (r : SearchResult)
    (h : (processName env store name).result = .ok r) :
    r.score = classifyScore r.details ∧
    r.explanation = classifyExplanation r.details := by
  simp only [processName] at h
  cases hf : env.fetch (searchUrlOf name) with
  | error e => rw [hf] at h; simp at h
  | ok searchHtml =>
    rw [hf] at h
    simp only at h
    cases hr : runLinks env (extractDetailLinks searchHtml)
        { details := [], hasLive := false, hasRedMark := false,
          cached := loadCacheMap store name, fetched := [] } with
    | error ef => rw [hr] at h; simp at h
    | ok stF =>
      rw [hr] at h
      simp only [Except.ok.injEq] at h
      obtain ⟨hl, hrm⟩ := runLinks_flags env (extractDetailLinks searchHtml) _ stF hr
        (by simp) (by simp)
      constructor
      · have : r.score = (scoreOfFlags stF.hasLive stF.hasRedMark).1 := by rw [← h]
        rw [this, classifyScore, ← h, ← hl, ← hrm]
      · have : r.explanation = (scoreOfFlags stF.hasLive stF.hasRedMark).2 := by
          rw [← h]
        rw [this, classifyExplanation, ← h, ← hl, ← hrm]

/-- C3: the risk classification is invariant under permutation of the detail
records; any record set containing a live record with a flagged class scores
`Red` in every order; and it is the classification `processName` returns. -/
theorem classify_perm_invariant :
    (∀ (l₁ l₂ : List DetailRecord), l₁.Perm l₂ →
      classifyScore l₁ = classifyScore l₂ ∧
      classifyExplanation l₁ = classifyExplanation l₂) ∧
    (∀ (l : List DetailRecord) (d : DetailRecord), d ∈ l → RecFlagged d →
      classifyScore l = "Red") ∧
    (∀ (env : FetchEnv) (store : Store) (name : String) (r : SearchResult),
      (processName env store name).result = .ok r →
      r.score = classifyScore r.details) := by
  refine ⟨?_, ?_, ?_⟩
  · intro l₁ l₂ h
    rw [classifyScore, classifyScore, classifyExplanation, classifyExplanation,
      any_perm l₁ l₂ h recordLiveB, any_perm l₁ l₂ h recordRedB]
    exact ⟨rfl, rfl⟩
  · intro l d hd hfl
    have hred : l.any recordRedB = true := (any_iff_exists_red l).mpr ⟨d, hd, hfl⟩
    have hliv : l.any recordLiveB = true :=
      (any_iff_exists_live l).mpr ⟨d, hd, hfl.1⟩
    rw [classifyScore, hred, hliv]
    rfl
  · intro env store name r h
    exact (processName_result_classify env store name r h).1

/-- Witness for `classify_perm_invariant` at concrete inputs: a two-record
set with a live 028 filing scores `Red` in both orders. -/
theorem classify_perm_invariant_witness :
    classifyScore [{ status := some "LIVE", classes := some ["028"] },
        { status := some "DEAD", classes := some [] }] =
      classifyScore [{ status := some "DEAD", classes := some [] },
        { status := some "LIVE", classes := some ["028"] }] ∧
    classifyScore [{ status := some "DEAD", classes := some [] },
        { status := some "LIVE", classes := some ["028"] }] = "Red" :=
  ⟨(classify_perm_invariant.1 _ _ (List.Perm.swap _ _ [])).1,
   classify_perm_invariant.2.1 _ { status := some "LIVE", classes := some ["028"] }
     (by decide) (by constructor <;> simp)⟩

/-- An occurrence of the word `w` (lower-case) in `s`, case-insensitively,
with a whitespace character immediately before and immediately after it:
what `/\sWORD\s/i.test` detects. -/
def WsDelimOcc (w s : List Char) : Prop :=
  ∃ a c1 m c2 b, s = a ++ c1 :: (m ++ c2 :: b) ∧ isJsSpace c1 = true ∧
    isJsSpace c2 = true ∧ m.map lcChar = w

theorem ciDrop_iff (w s r : List Char) :
    ciDrop w s = some r ↔ ∃ m, s = m ++ r ∧ m.map lcChar = w := by
  constructor
  · intro h
    rw [ciDrop] at h
    cases h1 : ciDropKeep w s with
    | none => rw [h1] at h; simp at h
    | some pr =>
      rw [h1] at h
      obtain ⟨pre, rest⟩ := pr
      simp only [Option.some.injEq] at h
      subst h
      obtain ⟨hm, he⟩ := ciDropKeep_sound w s pre rest h1
      exact ⟨pre, he, hm⟩
  · rintro ⟨m, he, hm⟩
    subst he
    rw [ciDrop, ← hm, ciDropKeep_complete m r]

theorem wordThenWs_iff (w s : List Char) :
    wordThenWs w s = true ↔
    ∃ m c2 b, s = m ++ c2 :: b ∧ m.map lcChar = w ∧ isJsSpace c2 = true := by
  constructor
  · intro h
    rw [wordThenWs] at h
    cases h1 : ciDrop w s with
    | none => rw [h1] at h; simp at h
    | some r =>
      rw [h1] at h
      cases r with
      | nil => simp at h
      | cons c2 b =>
        obtain ⟨m, he, hm⟩ := (ciDrop_iff w s (c2 :: b)).mp h1
        exact ⟨m, c2, b, he, hm, h⟩
  · rintro ⟨m, c2, b, he, hm, hws⟩
    subst he
    rw [wordThenWs, (ciDrop_iff w (m ++ c2 :: b) (c2 :: b)).mpr ⟨m, rfl, hm⟩]
    exact hws

theorem wsWordWs_iff (w : List Char) :
    ∀ s, wsWordWs w s = true ↔ WsDelimOcc w s := by
  intro s
  induction s with
  | nil =>
    simp only [wsWordWs, WsDelimOcc]
    constructor
    · intro h; simp at h
    · rintro ⟨a, c1, m, c2, b, he, _⟩
      exact absurd he (by simp)
  | cons c rest ih =>
    simp only [wsWordWs, Bool.or_eq_true, Bool.and_eq_true]
    constructor
    · rintro (⟨hws, hw⟩ | hrec)
      · obtain ⟨m, c2, b, he, hm, hws2⟩ := (wordThenWs_iff w rest).mp hw
        exact ⟨[], c, m, c2, b, by simp [he], hws, hws2, hm⟩
      · obtain ⟨a, c1, m, c2, b, he, h1, h2, h3⟩ := ih.mp hrec
        exact ⟨c :: a, c1, m, c2, b, by rw [he]; rfl, h1, h2, h3⟩
    · rintro ⟨a, c1, m, c2, b, he, h1, h2, h3⟩
      cases a with
      | nil =>
        simp only [List.nil_append, List.cons.injEq] at he
        obtain ⟨hc, hrest⟩ := he
        left
        subst hc
        refine ⟨h1, (wordThenWs_iff w rest).mpr ⟨m, c2, b, hrest, h3, h2⟩⟩
      | cons x a2 =>
        simp only [List.cons_append, List.cons.injEq] at he
        obtain ⟨hc, hrest⟩ := he
        right
        exact ih.mpr ⟨a2, c1, m, c2, b, hrest, h1, h2, h3⟩

/-- C5 (amended): `parseDetail` sets `status` to `LIVE` exactly when the raw
markup holds `LIVE`, case-insensitively, with whitespace immediately on both
sides; otherwise to `DEAD` under the same whitespace-delimited test; otherwise
to the empty string.  (The source tests `/\sLIVE\s/i`, a whitespace-delimited
check, not a whole-word boundary check.) -/
theorem parseDetail_status_characterization (html : String) :
    ((parseDetail html).status = some "LIVE" ↔
      WsDelimOcc "live".data html.data) ∧
    ((parseDetail html).status = some "DEAD" ↔
      ¬ WsDelimOcc "live".data html.data ∧ WsDelimOcc "dead".data html.data) ∧
    ((parseDetail html).status = some "" ↔
      ¬ WsDelimOcc "live".data html.data ∧ ¬ WsDelimOcc "dead".data html.data) := by
  have hst : (parseDetail html).status =
      some (if wsWordWs "live".data html.data then "LIVE"
        else if wsWordWs "dead".data html.data then "DEAD" else "") := rfl
  rw [hst]
  cases hl : wsWordWs "live".data html.data with
  | true =>
    have hL : WsDelimOcc "live".data html.data := (wsWordWs_iff _ _).mp hl
    simp only [if_pos rfl, if_true]
    refine ⟨by simp [hL], ?_, ?_⟩
    · constructor
      · intro h; simp at h
      · rintro ⟨hn, _⟩; exact absurd hL hn
    · constructor
      · intro h; simp at h
      · rintro ⟨hn, _⟩; exact absurd hL hn
  | false =>
    have hnL : ¬ WsDelimOcc "live".data html.data := fun hc => by
      rw [(wsWordWs_iff _ _).mpr hc] at hl
      exact absurd hl (by decide)
    simp only [Bool.false_eq_true, if_false]
    cases hd : wsWordWs "dead".data html.data with
    | true =>
      have hD : WsDelimOcc "dead".data html.data := (wsWordWs_iff _ _).mp hd
      simp only [if_true]
      refine ⟨?_, by simp [hnL, hD], ?_⟩
      · constructor
        · intro h; simp at h
        · intro hc; exact absurd hc hnL
      · constructor
        · intro h; simp at h
        · rintro ⟨_, hn⟩; exact absurd hD hn
    | false =>
      have hnD : ¬ WsDelimOcc "dead".data html.data := fun hc => by
        rw [(wsWordWs_iff _ _).mpr hc] at hd
        exact absurd hd (by decide)
      simp only [Bool.false_eq_true, if_false]
      refine ⟨?_, ?_, by simp [hnL, hnD]⟩
      · constructor
        · intro h; simp at h
        · intro hc; exact absurd hc hnL
      · constructor
        · intro h; simp at h
        · rintro ⟨_, hc⟩; exact absurd hc hnD

/-- An ASCII word character, for the whole-word boundary reading. -/
def isWordChar (c : Char) : Bool :=
  if ('A' ≤ c ∧ c ≤ 'Z') ∨ ('a' ≤ c ∧ c ≤ 'z') ∨ ('0' ≤ c ∧ c ≤ '9') ∨ c = '_'
  then true else false

/-- Whether the previous character permits a word boundary here. -/
def boundaryOk : Option Char → Bool
  | none => true
  | some p => !(isWordChar p)

/-- Whether the word matches here and ends at a word boundary. -/
def wordAfterOk (w : List Char) (s : List Char) : Bool :=
  match ciDrop w s with
  | some [] => true
  | some (c :: _) => !(isWordChar c)
  | none => false

/-- Scan for a whole-word, case-insensitive occurrence, carrying the
previous character for the left boundary. -/
def wholeWordFrom (w : List Char) (prev : Option Char) : List Char → Bool
  | [] => false
  | c :: rest =>
    (boundaryOk prev && wordAfterOk w (c :: rest)) || wholeWordFrom w (some c) rest

/-- Whole-word, case-insensitive containment of `w` in `s`. -/
def containsWholeWordCi (w s : List Char) : Bool :=
  wholeWordFrom w none s

/-- Modelled from the spec: the status rule as the spec words it, a
whole-word, case-insensitive presence check for `LIVE` and then `DEAD`
anywhere in the raw markup, empty when neither is present. -/
def specWholeWordStatus (html : String) : String :=
  if containsWholeWordCi "live".data html.data then "LIVE"
  else if containsWholeWordCi "dead".data html.data then "DEAD"
  else ""

/-- C5 counterexample: `>LIVE<` contains `LIVE` as a whole word, so the
claimed rule assigns `LIVE`, but `parseDetail` finds no whitespace around it
and leaves `status` empty. -/
theorem parseDetail_status_not_whole_word :
    specWholeWordStatus ">LIVE<" = "LIVE" ∧
    (parseDetail ">LIVE<").status = some "" ∧
    (parseDetail ">LIVE<").status ≠ some (specWholeWordStatus ">LIVE<") := by
  refine ⟨by decide, by decide, by decide⟩

/-- C9: the trademark-owner cell `Acme Pty Ltd -> 1 Main St, Sydney` parses
to owner name `Acme Pty Ltd`, owner address `1 Main St, Sydney`, and the
derived display field `Acme Pty Ltd, 1 Main St, Sydney`. -/
theorem parseDetail_owner_example :
    (parseDetail "<th>Trademark Owner</th><td>Acme Pty Ltd -> 1 Main St, Sydney</td>").ownerName =
      some "Acme Pty Ltd" ∧
    (parseDetail "<th>Trademark Owner</th><td>Acme Pty Ltd -> 1 Main St, Sydney</td>").ownerAddress =
      some "1 Main St, Sydney" ∧
    (parseDetail "<th>Trademark Owner</th><td>Acme Pty Ltd -> 1 Main St, Sydney</td>").owner =
      some "Acme Pty Ltd, 1 Main St, Sydney" := by
  refine ⟨by decide, by decide, by decide⟩

/-- C8 (code-bug evidence): a cache blob whose record for the discovered URL
has `status` `LIVE` but no `classes` field makes the loop read
`info.classes.includes` on an absent property; `processName` throws and the
handler turns the whole name into an error object, instead of classifying
with the missing field defaulted. -/
theorem processName_cached_live_no_classes :
    (processName ⟨fun _ => .ok "/australia/trademark/trademark-detail/9/q"⟩
      [(encodeURIComponent "n",
        [(baseUrl ++ "/australia/trademark/trademark-detail/9/q",
          { status := some "LIVE",
            detailUrl := some (baseUrl ++ "/australia/trademark/trademark-detail/9/q") })])]
      "n").result =
      .error "TypeError: Cannot read properties of undefined (reading includes)" ∧
    (runName ⟨fun _ => .ok "/australia/trademark/trademark-detail/9/q"⟩
      [(encodeURIComponent "n",
        [(baseUrl ++ "/australia/trademark/trademark-detail/9/q",
          { status := some "LIVE",
            detailUrl := some (baseUrl ++ "/australia/trademark/trademark-detail/9/q") })])]
      "n").1 =
      .err "TypeError: Cannot read properties of undefined (reading includes)" := by
  refine ⟨by decide, by decide⟩

/-- C6: when the search-page fetch for a name fails, the whole call yields
only the error, reads no cache file, writes no cache file, fetches no detail
page, leaves the store untouched, and the handler stores `{error}`. -/
theorem processName_search_fetch_fails (env : FetchEnv) (store : Store)
    (name : String) (e : String) (h : env.fetch (searchUrlOf name) = .error e) :
    processName env store name =
      { result := .error e, store2 := store, detailFetches := [],
        cacheReads := [], cacheWrites := [] } ∧
    runName env store name = (.err e, store) := by
  constructor
  · simp [processName, h]
  · simp [runName, processName, h]

/-- Witness for `processName_search_fetch_fails` at a concrete failing
environment. -/
theorem processName_search_fetch_fails_witness :
    processName ⟨fun _ => .error "down"⟩ [] "w" =
      { result := .error "down", store2 := [], detailFetches := [],
        cacheReads := [], cacheWrites := [] } ∧
    runName ⟨fun _ => .error "down"⟩ [] "w" = (.err "down", []) :=
  processName_search_fetch_fails ⟨fun _ => .error "down"⟩ [] "w" "down" rfl

/-- The value the response object ends with for a key: the result of the
last assignment to that name, recursively preferring later calls. -/
def lastWritten (n : String) : List (String × NameResult) → Option NameResult
  | [] => none
  | (k, v) :: t =>
    match lastWritten n t with
    | some r => some r
    | none => if k = n then some v else none

theorem alLookup_insert {α : Type} (m : List (String × α)) (k n : String) (v : α) :
    alLookup (alInsert m k v) n = if k = n then some v else alLookup m n := by
  induction m with
  | nil => simp [alInsert, alLookup]
  | cons p t ih =>
    obtain ⟨k1, v1⟩ := p
    simp only [alInsert]
    by_cases h1 : k1 = k
    · subst h1
      by_cases h2 : k1 = n
      · simp [alLookup, h2]
      · simp [alLookup, h2]
    · simp only [if_neg h1, alLookup]
      by_cases h2 : k1 = n
      · have hkn : ¬(k = n) := fun hc => h1 (h2.trans hc.symm)
        simp [h2, hkn]
      · simp [h2, ih]

theorem respond_foldl (calls : List (String × NameResult)) :
    ∀ (m : List (String × NameResult)) (n : String),
    alLookup (calls.foldl (fun acc p => alInsert acc p.1 p.2) m) n =
      match lastWritten n calls with
      | some r => some r
      | none => alLookup m n := by
  induction calls with
  | nil => intro m n; simp [lastWritten]
  | cons p t ih =>
    intro m n
    obtain ⟨k, v⟩ := p
    simp only [List.foldl_cons, lastWritten]
    rw [ih (alInsert m k v) n]
    cases lastWritten n t with
    | some r => rfl
    | none => by_cases h : k = n <;> simp [h, alLookup_insert]

theorem processList_calls (env : FetchEnv) :
    ∀ (names : List String) (store : Store),
    ((processList env store names).1).map Prod.fst = names := by
  intro names
  induction names with
  | nil => intro store; rfl
  | cons n rest ih =>
    intro store
    simp only [processList, List.map_cons]
    rw [ih]

/-- C10: the batch handler splits the names string on runs of commas and
newlines, trims entries, drops empty ones, runs one `processName` call per
remaining entry in list order (repeats included), and the response maps each
name to the result of its last processing. -/
theorem handler_batch_behavior :
    (∀ (env : FetchEnv) (store : Store) (namesStr : String),
      ((processList env store (parseNames namesStr)).1).map Prod.fst =
        parseNames namesStr) ∧
    (∀ (env : FetchEnv) (store : Store) (namesStr : String) (n : String),
      alLookup (respond (processList env store (parseNames namesStr)).1) n =
        lastWritten n (processList env store (parseNames namesStr)).1) ∧
    parseNames " a,, b \n,a " = ["a", "b", "a"] := by
  refine ⟨?_, ?_, by decide⟩
  · intro env store namesStr
    exact processList_calls env (parseNames namesStr) store
  · intro env store namesStr n
    rw [respond, respond_foldl]
    cases lastWritten n (processList env store (parseNames namesStr)).1 with
    | some r => rfl
    | none => rfl

theorem url_not_falsy (rel : String) : jsFalsy (some (baseUrl ++ rel)) = false := by
  simp only [jsFalsy, decide_eq_false_iff_not]
  intro hc
  have hlen := congrArg String.length hc
  rw [String.length_append] at hlen
  have : baseUrl.length = 30 := by decide
  simp [this] at hlen

theorem stepLink_preserves_entry (env : FetchEnv) (st : LoopState) (rel : String)
    (st1 : LoopState) (u : String) (r : DetailRecord)
    (h : stepLink env st rel = .ok st1)
    (hu : alLookup st.cached u = some r) (hnf : jsFalsy r.detailUrl = false) :
    alLookup st1.cached u = some r := by
  simp only [stepLink] at h
  cases hq : alLookup st.cached (baseUrl ++ rel) with
  | some info0 =>
    rw [hq] at h
    simp only at h
    cases hfl : updateFlags st.hasLive st.hasRedMark
        (if jsFalsy info0.detailUrl then
          { info0 with detailUrl := some (baseUrl ++ rel) } else info0) with
    | error e => rw [hfl] at h; simp at h
    | ok fl =>
      rw [hfl] at h
      simp only [Except.ok.injEq] at h
      subst h
      simp only
      by_cases hfy : jsFalsy info0.detailUrl = true
      · rw [if_pos hfy]
        by_cases huu : (baseUrl ++ rel) = u
        · subst huu
          rw [hq] at hu
          have : info0 = r := by injection hu
          subst this
          rw [hfy] at hnf
          simp at hnf
        · rw [alLookup_insert, if_neg huu]
          exact hu
      · rw [if_neg hfy]
        exact hu
  | none =>
    rw [hq] at h
    cases hf : env.fetch (baseUrl ++ rel) with
    | error e =>
      rw [hf] at h
      simp only [Except.ok.injEq] at h
      subst h
      exact hu
    | ok html =>
      rw [hf] at h
      simp only at h
      cases hfl : updateFlags st.hasLive st.hasRedMark
          { parseDetail html with detailUrl := some (baseUrl ++ rel) } with
      | error e => rw [hfl] at h; simp at h
      | ok fl =>
        rw [hfl] at h
        simp only [Except.ok.injEq] at h
        subst h
        simp only
        have huu : ¬((baseUrl ++ rel) = u) := fun hc => by
          rw [hc] at hq; rw [hq] at hu; exact Option.noConfusion hu
        rw [alLookup_insert, if_neg huu]
        exact hu

theorem runLinks_preserves_entry (env : FetchEnv) :
    ∀ (L : List String) (st stF : LoopState) (u : String) (r : DetailRecord),
    runLinks env L st = .ok stF → alLookup st.cached u = some r →
    jsFalsy r.detailUrl = false → alLookup stF.cached u = some r := by
  intro L
  induction L with
  | nil =>
    intro st stF u r h hu _
    simp only [runLinks, Except.ok.injEq] at h
    subst h
    exact hu
  | cons rel rest ih =>
    intro st stF u r h hu hnf
    simp only [runLinks] at h
    cases hs : stepLink env st rel with
    | error e => rw [hs] at h; simp at h
    | ok st1 =>
      rw [hs] at h
      exact ih st1 stF u r h (stepLink_preserves_entry env st rel st1 u r hs hu hnf) hnf

theorem stepLink_keeps_none (env : FetchEnv) (st : LoopState) (rel : String)
    (st1 : LoopState) (u : String) (e0 : String)
    (h : stepLink env st rel = .ok st1) (hn : alLookup st.cached u = none)
    (hf0 : env.fetch u = .error e0) : alLookup st1.cached u = none := by
  simp only [stepLink] at h
  cases hq : alLookup st.cached (baseUrl ++ rel) with
  | some info0 =>
    rw [hq] at h
    simp only at h
    cases hfl : updateFlags st.hasLive st.hasRedMark
        (if jsFalsy info0.detailUrl then
          { info0 with detailUrl := some (baseUrl ++ rel) } else info0) with
    | error e => rw [hfl] at h; simp at h
    | ok fl =>
      rw [hfl] at h
      simp only [Except.ok.injEq] at h
      subst h
      simp only
      have huu : ¬((baseUrl ++ rel) = u) := fun hc => by
        rw [hc] at hq; rw [hq] at hn; exact Option.noConfusion hn
      by_cases hfy : jsFalsy info0.detailUrl = true
      · rw [if_pos hfy, alLookup_insert, if_neg huu]; exact hn
      · rw [if_neg hfy]; exact hn
  | none =>
    rw [hq] at h
    cases hf : env.fetch (baseUrl ++ rel) with
    | error e =>
      rw [hf] at h
      simp only [Except.ok.injEq] at h
      subst h
      exact hn
    | ok html =>
      rw [hf] at h
      simp only at h
      cases hfl : updateFlags st.hasLive st.hasRedMark
          { parseDetail html with detailUrl := some (baseUrl ++ rel) } with
      | error e => rw [hfl] at h; simp at h
      | ok fl =>
        rw [hfl] at h
        simp only [Except.ok.injEq] at h
        subst h
        simp only
        have huu : ¬((baseUrl ++ rel) = u) := fun hc => by
          rw [hc] at hf; rw [hf0] at hf; exact Except.noConfusion hf
        rw [alLookup_insert, if_neg huu]
        exact hn

theorem runLinks_keeps_none (env : FetchEnv) (e0 : String) :
    ∀ (L : List String) (st stF : LoopState) (u : String),
    runLinks env L st = .ok stF → alLookup st.cached u = none →
    env.fetch u = .error e0 → alLookup stF.cached u = none := by
  intro L
  induction L with
  | nil =>
    intro st stF u h hn _
    simp only [runLinks, Except.ok.injEq] at h
    subst h
    exact hn
  | cons rel rest ih =>
    intro st stF u h hn hf0
    simp only [runLinks] at h
    cases hs : stepLink env st rel with
    | error e => rw [hs] at h; simp at h
    | ok st1 =>
      rw [hs] at h
      exact ih st1 stF u h (stepLink_keeps_none env st rel st1 u e0 hs hn hf0) hf0

theorem stepLink_appends (env : FetchEnv) (st : LoopState) (rel : String)
    (st1 : LoopState) (h : stepLink env st rel = .ok st1) :
    ∃ d, st1.details = st.details ++ [d] := by
  simp only [stepLink] at h
  cases hq : alLookup st.cached (baseUrl ++ rel) with
  | some info0 =>
    rw [hq] at h
    simp only at h
    cases hfl : updateFlags st.hasLive st.hasRedMark
        (if jsFalsy info0.detailUrl then
          { info0 with detailUrl := some (baseUrl ++ rel) } else info0) with
    | error e => rw [hfl] at h; simp at h
    | ok fl =>
      rw [hfl] at h
      simp only [Except.ok.injEq] at h
      subst h
      exact ⟨_, rfl⟩
  | none =>
    rw [hq] at h
    cases hf : env.fetch (baseUrl ++ rel) with
    | error e =>
      rw [hf] at h
      simp only [Except.ok.injEq] at h
      subst h
      exact ⟨_, rfl⟩
    | ok html =>
      rw [hf] at h
      simp only at h
      cases hfl : updateFlags st.hasLive st.hasRedMark
          { parseDetail html with detailUrl := some (baseUrl ++ rel) } with
      | error e => rw [hfl] at h; simp at h
      | ok fl =>
        rw [hfl] at h
        simp only [Except.ok.injEq] at h
        subst h
        exact ⟨_, rfl⟩

theorem runLinks_details_mono (env : FetchEnv) :
    ∀ (L : List String) (st stF : LoopState), runLinks env L st = .ok stF →
    ∃ ds, stF.details = st.details ++ ds := by
  intro L
  induction L with
  | nil =>
    intro st stF h
    simp only [runLinks, Except.ok.injEq] at h
    subst h
    exact ⟨[], by simp⟩
  | cons rel rest ih =>
    intro st stF h
    simp only [runLinks] at h
    cases hs : stepLink env st rel with
    | error e => rw [hs] at h; simp at h
    | ok st1 =>
      rw [hs] at h
      obtain ⟨d, hd⟩ := stepLink_appends env st rel st1 hs
      obtain ⟨ds, hds⟩ := ih st1 stF h
      exact ⟨d :: ds, by rw [hds, hd]; simp⟩

theorem runLinks_details_count (env : FetchEnv) :
    ∀ (L : List String) (st stF : LoopState), runLinks env L st = .ok stF →
    stF.details.length = st.details.length + L.length := by
  intro L
  induction L with
  | nil =>
    intro st stF h
    simp only [runLinks, Except.ok.injEq] at h
    subst h
    simp
  | cons rel rest ih =>
    intro st stF h
    simp only [runLinks] at h
    cases hs : stepLink env st rel with
    | error e => rw [hs] at h; simp at h
    | ok st1 =>
      rw [hs] at h
      obtain ⟨d, hd⟩ := stepLink_appends env st rel st1 hs
      have := ih st1 stF h
      rw [this, hd]
      simp
      omega

theorem stepLink_cache_mono (env : FetchEnv) (st : LoopState) (rel : String)
    (st1 : LoopState) (u : String) (r : DetailRecord)
    (h : stepLink env st rel = .ok st1) (hu : alLookup st.cached u = some r) :
    ∃ r2, alLookup st1.cached u = some r2 := by
  simp only [stepLink] at h
  cases hq : alLookup st.cached (baseUrl ++ rel) with
  | some info0 =>
    rw [hq] at h
    simp only at h
    cases hfl : updateFlags st.hasLive st.hasRedMark
        (if jsFalsy info0.detailUrl then
          { info0 with detailUrl := some (baseUrl ++ rel) } else info0) with
    | error e => rw [hfl] at h; simp at h
    | ok fl =>
      rw [hfl] at h
      simp only [Except.ok.injEq] at h
      subst h
      simp only
      by_cases hfy : jsFalsy info0.detailUrl = true
      · rw [if_pos hfy, alLookup_insert]
        by_cases huu : (baseUrl ++ rel) = u
        · rw [if_pos huu]; exact ⟨_, rfl⟩
        · rw [if_neg huu]; exact ⟨r, hu⟩
      · rw [if_neg hfy]; exact ⟨r, hu⟩
  | none =>
    rw [hq] at h
    cases hf : env.fetch (baseUrl ++ rel) with
    | error e =>
      rw [hf] at h
      simp only [Except.ok.injEq] at h
      subst h
      exact ⟨r, hu⟩
    | ok html =>
      rw [hf] at h
      simp only at h
      cases hfl : updateFlags st.hasLive st.hasRedMark
          { parseDetail html with detailUrl := some (baseUrl ++ rel) } with
      | error e => rw [hfl] at h; simp at h
      | ok fl =>
        rw [hfl] at h
        simp only [Except.ok.injEq] at h
        subst h
        simp only
        rw [alLookup_insert]
        by_cases huu : (baseUrl ++ rel) = u
        · rw [if_pos huu]; exact ⟨_, rfl⟩
        · rw [if_neg huu]; exact ⟨r, hu⟩

theorem stepLink_fetched (env : FetchEnv) (st : LoopState) (rel : String)
    (st1 : LoopState) (u : String) (h : stepLink env st rel = .ok st1)
    (hu : u ∈ st1.fetched) : u ∈ st.fetched ∨ alLookup st.cached u = none := by
  simp only [stepLink] at h
  cases hq : alLookup st.cached (baseUrl ++ rel) with
  | some info0 =>
    rw [hq] at h
    simp only at h
    cases hfl : updateFlags st.hasLive st.hasRedMark
        (if jsFalsy info0.detailUrl then
          { info0 with detailUrl := some (baseUrl ++ rel) } else info0) with
    | error e => rw [hfl] at h; simp at h
    | ok fl =>
      rw [hfl] at h
      simp only [Except.ok.injEq] at h
      subst h
      exact Or.inl hu
  | none =>
    rw [hq] at h
    cases hf : env.fetch (baseUrl ++ rel) with
    | error e =>
      rw [hf] at h
      simp only [Except.ok.injEq] at h
      subst h
      simp only at hu
      rcases List.mem_append.mp hu with hl | hr
      · exact Or.inl hl
      · right
        have : u = baseUrl ++ rel := by simpa using hr
        rw [this]
        exact hq
    | ok html =>
      rw [hf] at h
      simp only at h
      cases hfl : updateFlags st.hasLive st.hasRedMark
          { parseDetail html with detailUrl := some (baseUrl ++ rel) } with
      | error e => rw [hfl] at h; simp at h
      | ok fl =>
        rw [hfl] at h
        simp only [Except.ok.injEq] at h
        subst h
        simp only at hu
        rcases List.mem_append.mp hu with hl | hr
        · exact Or.inl hl
        · right
          have : u = baseUrl ++ rel := by simpa using hr
          rw [this]
          exact hq

theorem runLinks_fetched (env : FetchEnv) :
    ∀ (L : List String) (st stF : LoopState) (u : String),
    runLinks env L st = .ok stF → u ∈ stF.fetched →
    u ∈ st.fetched ∨ alLookup st.cached u = none := by
  intro L
  induction L with
  | nil =>
    intro st stF u h hu
    simp only [runLinks, Except.ok.injEq] at h
    subst h
    exact Or.inl hu
  | cons rel rest ih =>
    intro st stF u h hu
    simp only [runLinks] at h
    cases hs : stepLink env st rel with
    | error e => rw [hs] at h; simp at h
    | ok st1 =>
      rw [hs] at h
      rcases ih st1 stF u h hu with h1 | h1
      · exact stepLink_fetched env st rel st1 u hs h1
      · cases hn : alLookup st.cached u with
        | none => exact Or.inr rfl
        | some r =>
          obtain ⟨r2, hr2⟩ := stepLink_cache_mono env st rel st1 u r hs hn
          rw [hr2] at h1
          exact Option.noConfusion h1

theorem runLinks_fetched_err (env : FetchEnv) :
    ∀ (L : List String) (st : LoopState) (e : String) (f : List String) (u : String),
    runLinks env L st = .error (e, f) → u ∈ f →
    u ∈ st.fetched ∨ alLookup st.cached u = none := by
  intro L
  induction L with
  | nil =>
    intro st e f u h _
    simp [runLinks] at h
  | cons rel rest ih =>
    intro st e f u h hu
    simp only [runLinks] at h
    cases hs : stepLink env st rel with
    | error e0 =>
      rw [hs] at h
      simp only [Except.error.injEq, Prod.mk.injEq] at h
      obtain ⟨_, hf⟩ := h
      subst hf
      exact Or.inl hu
    | ok st1 =>
      rw [hs] at h
      rcases ih st1 e f u h hu with h1 | h1
      · exact stepLink_fetched env st rel st1 u hs h1
      · cases hn : alLookup st.cached u with
        | none => exact Or.inr rfl
        | some r =>
          obtain ⟨r2, hr2⟩ := stepLink_cache_mono env st rel st1 u r hs hn
          rw [hr2] at h1
          exact Option.noConfusion h1

theorem stepLink_cases (env : FetchEnv) (st : LoopState) (rel : String)
    (st1 : LoopState) (h : stepLink env st rel = .ok st1) :
    (∃ info, alLookup st1.cached (baseUrl ++ rel) = some info ∧
      jsFalsy info.detailUrl = false) ∨
    (∃ e, env.fetch (baseUrl ++ rel) = .error e ∧
      st1.details = st.details ++ [errorRecord e] ∧ st1.cached = st.cached) := by
  simp only [stepLink] at h
  cases hq : alLookup st.cached (baseUrl ++ rel) with
  | some info0 =>
    rw [hq] at h
    simp only at h
    cases hfl : updateFlags st.hasLive st.hasRedMark
        (if jsFalsy info0.detailUrl then
          { info0 with detailUrl := some (baseUrl ++ rel) } else info0) with
    | error e => rw [hfl] at h; simp at h
    | ok fl =>
      rw [hfl] at h
      simp only [Except.ok.injEq] at h
      subst h
      left
      simp only
      by_cases hfy : jsFalsy info0.detailUrl = true
      · refine ⟨{ info0 with detailUrl := some (baseUrl ++ rel) }, ?_, ?_⟩
        · simp [hfy, alLookup_insert]
        · exact url_not_falsy rel
      · rw [if_neg hfy]
        exact ⟨info0, hq, Bool.not_eq_true _ ▸ hfy⟩
  | none =>
    rw [hq] at h
    cases hf : env.fetch (baseUrl ++ rel) with
    | error e =>
      rw [hf] at h
      simp only [Except.ok.injEq] at h
      subst h
      exact Or.inr ⟨e, rfl, rfl, rfl⟩
    | ok html =>
      rw [hf] at h
      simp only at h
      cases hfl : updateFlags st.hasLive st.hasRedMark
          { parseDetail html with detailUrl := some (baseUrl ++ rel) } with
      | error e => rw [hfl] at h; simp at h
      | ok fl =>
        rw [hfl] at h
        simp only [Except.ok.injEq] at h
        subst h
        left
        simp only
        rw [alLookup_insert, if_pos rfl]
        exact ⟨_, rfl, url_not_falsy rel⟩

theorem runLinks_all_cached (env : FetchEnv) :
    ∀ (L : List String) (st stF : LoopState), runLinks env L st = .ok stF →
    (∀ d ∈ stF.details, d.error = none) →
    ∀ rel ∈ L, ∃ r, alLookup stF.cached (baseUrl ++ rel) = some r := by
  intro L
  induction L with
  | nil => intro st stF _ _ rel hmem; simp at hmem
  | cons rel0 rest ih =>
    intro st stF h hnoerr rel hmem
    simp only [runLinks] at h
    cases hs : stepLink env st rel0 with
    | error e => rw [hs] at h; simp at h
    | ok st1 =>
      rw [hs] at h
      rcases List.mem_cons.mp hmem with he | ht
      · subst he
        rcases stepLink_cases env st rel st1 hs with ⟨info, hl, hnf⟩ | ⟨e, _, hdet, _⟩
        · exact ⟨info, runLinks_preserves_entry env rest st1 stF _ info h hl hnf⟩
        · obtain ⟨ds, hds⟩ := runLinks_details_mono env rest st1 stF h
          have hmem2 : errorRecord e ∈ stF.details := by
            rw [hds, hdet]
            simp
          have := hnoerr (errorRecord e) hmem2
          simp [errorRecord] at this
      · exact ih st1 stF h hnoerr rel ht

/-- The detail URLs of `L` that are absent from the cache mapping `c`. -/
def missUrls (L : List String) (c : CacheMap) : List String :=
  (L.map (fun rel => baseUrl ++ rel)).filter (fun u => (alLookup c u).isNone)

theorem missUrls_cons (rel : String) (L : List String) (c : CacheMap) :
    missUrls (rel :: L) c =
      if (alLookup c (baseUrl ++ rel)).isNone then
        (baseUrl ++ rel) :: missUrls L c
      else missUrls L c := by
  simp only [missUrls, List.map_cons, List.filter_cons]

theorem missUrls_nil_of_cached (L : List String) (c : CacheMap)
    (h : ∀ rel ∈ L, ∃ r, alLookup c (baseUrl ++ rel) = some r) :
    missUrls L c = [] := by
  rw [missUrls, List.filter_eq_nil_iff]
  intro u hu
  obtain ⟨rel, hrel, he⟩ := List.mem_map.mp hu
  obtain ⟨r, hr⟩ := h rel hrel
  rw [← he, hr]
  simp

theorem mem_missUrls (L : List String) (c : CacheMap) (u : String)
    (h : u ∈ missUrls L c) : alLookup c u = none := by
  rw [missUrls] at h
  have := List.of_mem_filter h
  simpa using this

theorem stepLink_replay (env : FetchEnv) (st1 st1' st2 : LoopState) (rel : String)
    (cF : CacheMap) (hs : stepLink env st1 rel = .ok st1')
    (hpres : ∀ u r, alLookup st1'.cached u = some r →
      jsFalsy r.detailUrl = false → alLookup cF u = some r)
    (hnone : ∀ u e, alLookup st1'.cached u = none → env.fetch u = .error e →
      alLookup cF u = none)
    (hd : st2.details = st1.details) (hl : st2.hasLive = st1.hasLive)
    (hr : st2.hasRedMark = st1.hasRedMark) (hc : st2.cached = cF) :
    stepLink env st2 rel = .ok
      { details := st1'.details, hasLive := st1'.hasLive,
        hasRedMark := st1'.hasRedMark, cached := cF,
        fetched := st2.fetched ++ (if (alLookup cF (baseUrl ++ rel)).isNone then
          [baseUrl ++ rel] else []) } := by
  simp only [stepLink] at hs
  cases hq : alLookup st1.cached (baseUrl ++ rel) with
  | some info0 =>
    rw [hq] at hs
    simp only at hs
    cases hfl : updateFlags st1.hasLive st1.hasRedMark
        (if jsFalsy info0.detailUrl then
          { info0 with detailUrl := some (baseUrl ++ rel) } else info0) with
    | error e => rw [hfl] at hs; simp at hs
    | ok fl =>
      rw [hfl] at hs
      simp only [Except.ok.injEq] at hs
      have hdet1 : st1'.details = st1.details ++
          [if jsFalsy info0.detailUrl then
            { info0 with detailUrl := some (baseUrl ++ rel) } else info0] := by
        rw [← hs]
      have hlv1 : st1'.hasLive = fl.1 := by rw [← hs]
      have hrm1 : st1'.hasRedMark = fl.2 := by rw [← hs]
      have hcc1 : st1'.cached = (if jsFalsy info0.detailUrl then
          alInsert st1.cached (baseUrl ++ rel)
            (if jsFalsy info0.detailUrl then
              { info0 with detailUrl := some (baseUrl ++ rel) } else info0)
          else st1.cached) := by rw [← hs]
      have hent2 : jsFalsy (if jsFalsy info0.detailUrl then
          { info0 with detailUrl := some (baseUrl ++ rel) } else info0).detailUrl
          = false := by
        by_cases hfy : jsFalsy info0.detailUrl = true
        · simp only [hfy, if_true]
          exact url_not_falsy rel
        · simp only [hfy, Bool.false_eq_true, if_false]
      have hent1 : alLookup st1'.cached (baseUrl ++ rel) =
          some (if jsFalsy info0.detailUrl then
            { info0 with detailUrl := some (baseUrl ++ rel) } else info0) := by
        rw [hcc1]
        by_cases hfy : jsFalsy info0.detailUrl = true
        · simp only [hfy, if_true, alLookup_insert, if_pos rfl]
        · simp only [hfy, Bool.false_eq_true, if_false]
          exact hq
      have hcf := hpres _ _ hent1 hent2
      simp only [stepLink, hc, hcf]
      simp only [hent2, Bool.false_eq_true, if_false]
      rw [hl, hr, hfl]
      simp only [Except.ok.injEq]
      simp [hd, hdet1, hlv1, hrm1]
  | none =>
    rw [hq] at hs
    cases hf : env.fetch (baseUrl ++ rel) with
    | error e =>
      rw [hf] at hs
      simp only [Except.ok.injEq] at hs
      have hdet1 : st1'.details = st1.details ++ [errorRecord e] := by rw [← hs]
      have hlv1 : st1'.hasLive = st1.hasLive := by rw [← hs]
      have hrm1 : st1'.hasRedMark = st1.hasRedMark := by rw [← hs]
      have hcc1 : st1'.cached = st1.cached := by rw [← hs]
      have hcf : alLookup cF (baseUrl ++ rel) = none :=
        hnone _ e (hcc1 ▸ hq) hf
      simp only [stepLink, hc, hcf, hf]
      simp only [Except.ok.injEq]
      simp [hd, hl, hr, hdet1, hlv1, hrm1]
    | ok html =>
      rw [hf] at hs
      simp only at hs
      cases hfl : updateFlags st1.hasLive st1.hasRedMark
          { parseDetail html with detailUrl := some (baseUrl ++ rel) } with
      | error e => rw [hfl] at hs; simp at hs
      | ok fl =>
        rw [hfl] at hs
        simp only [Except.ok.injEq] at hs
        have hdet1 : st1'.details = st1.details ++
            [{ parseDetail html with detailUrl := some (baseUrl ++ rel) }] := by
          rw [← hs]
        have hlv1 : st1'.hasLive = fl.1 := by rw [← hs]
        have hrm1 : st1'.hasRedMark = fl.2 := by rw [← hs]
        have hcc1 : st1'.cached = alInsert st1.cached (baseUrl ++ rel)
            { parseDetail html with detailUrl := some (baseUrl ++ rel) } := by
          rw [← hs]
        have hent2 : jsFalsy ({ parseDetail html with
            detailUrl := some (baseUrl ++ rel) }).detailUrl = false :=
          url_not_falsy rel
        have hent1 : alLookup st1'.cached (baseUrl ++ rel) =
            some { parseDetail html with detailUrl := some (baseUrl ++ rel) } := by
          rw [hcc1]
          simp [alLookup_insert]
        have hcf := hpres _ _ hent1 hent2
        simp only [stepLink, hc, hcf]
        simp only [hent2, Bool.false_eq_true, if_false]
        rw [hl, hr, hfl]
        simp only [Except.ok.injEq]
        simp [hd, hdet1, hlv1, hrm1]

theorem runLinks_replay (env : FetchEnv) :
    ∀ (L : List String) (st1 stF st2 : LoopState),
    runLinks env L st1 = .ok stF →
    st2.details = st1.details → st2.hasLive = st1.hasLive →
    st2.hasRedMark = st1.hasRedMark → st2.cached = stF.cached →
    runLinks env L st2 = .ok
      { details := stF.details, hasLive := stF.hasLive,
        hasRedMark := stF.hasRedMark, cached := stF.cached,
        fetched := st2.fetched ++ missUrls L stF.cached } := by
  intro L
  induction L with
  | nil =>
    intro st1 stF st2 h hd hl hr hc
    simp only [runLinks, Except.ok.injEq] at h
    subst h
    simp only [runLinks, missUrls, List.map_nil, List.filter_nil,
      List.append_nil, Except.ok.injEq]
    obtain ⟨d2, l2, r2, c2, f2⟩ := st2
    simp only at hd hl hr hc
    subst hd
    subst hl
    subst hr
    subst hc
    rfl
  | cons rel rest ih =>
    intro st1 stF st2 h hd hl hr hc
    simp only [runLinks] at h
    cases hs : stepLink env st1 rel with
    | error e => rw [hs] at h; simp at h
    | ok st1' =>
      rw [hs] at h
      have hpres : ∀ u r, alLookup st1'.cached u = some r →
          jsFalsy r.detailUrl = false → alLookup stF.cached u = some r :=
        fun u r hu hnf => runLinks_preserves_entry env rest st1' stF u r h hu hnf
      have hnone : ∀ u e, alLookup st1'.cached u = none →
          env.fetch u = .error e → alLookup stF.cached u = none :=
        fun u e hu hf => runLinks_keeps_none env e rest st1' stF u h hu hf
      have hstep := stepLink_replay env st1 st1' st2 rel stF.cached hs hpres hnone
        hd hl hr hc
      simp only [runLinks, hstep]
      have hnext := ih st1' stF
        { details := st1'.details, hasLive := st1'.hasLive,
          hasRedMark := st1'.hasRedMark, cached := stF.cached,
          fetched := st2.fetched ++ (if (alLookup stF.cached (baseUrl ++ rel)).isNone
            then [baseUrl ++ rel] else []) }
        h rfl rfl rfl rfl
      rw [hnext]
      simp only [Except.ok.injEq]
      rw [missUrls_cons]
      by_cases hn : (alLookup stF.cached (baseUrl ++ rel)).isNone
      · simp [hn]
      · simp [hn]

theorem loadCacheMap_save (store : Store) (name : String) (m : CacheMap) :
    loadCacheMap (saveCacheMap store name m) name = m := by
  simp [loadCacheMap, saveCacheMap, alLookup_insert]

/-- C2 (amended): calling `processName` twice in succession with no upstream
changes returns an identical result; the second call fetches only detail URLs
absent from the saved cache; and when the first call succeeded with no
error-only records, the second call performs zero detail-page fetches.  (A
detail URL whose fetch failed is never cached, so with an upstream that keeps
failing for it the second call does fetch it again.) -/
theorem processName_second_call (env : FetchEnv) (store : Store) (name : String) :
    (processName env (processName env store name).store2 name).result =
      (processName env store name).result ∧
    (∀ u, u ∈ (processName env (processName env store name).store2 name).detailFetches →
      alLookup (loadCacheMap (processName env store name).store2 name) u = none) ∧
    ((∃ r, (processName env store name).result = .ok r ∧
        ∀ d ∈ r.details, d.error = none) →
      (processName env (processName env store name).store2 name).detailFetches = []) := by
  cases hf : env.fetch (searchUrlOf name) with
  | error e =>
    refine ⟨?_, ?_, ?_⟩ <;> simp [processName, hf]
  | ok shtml =>
    cases hr : runLinks env (extractDetailLinks shtml)
        { details := [], hasLive := false, hasRedMark := false,
          cached := loadCacheMap store name, fetched := [] } with
    | error ef =>
      obtain ⟨e, f⟩ := ef
      have hst : (processName env store name).store2 = store := by
        simp [processName, hf, hr]
      have hfet : (processName env store name).detailFetches = f := by
        simp [processName, hf, hr]
      have hres : (processName env store name).result = .error e := by
        simp [processName, hf, hr]
      rw [hst]
      refine ⟨rfl, ?_, ?_⟩
      · intro u hu
        rw [hfet] at hu
        rcases runLinks_fetched_err env (extractDetailLinks shtml) _ e f u hr hu with
          h1 | h1
        · simp at h1
        · exact h1
      · rintro ⟨r, hok, _⟩
        rw [hres] at hok
        exact Except.noConfusion hok
    | ok stF =>
      have hst : (processName env store name).store2 =
          saveCacheMap store name stF.cached := by
        simp [processName, hf, hr]
      have hres1 : (processName env store name).result =
          .ok { score := (scoreOfFlags stF.hasLive stF.hasRedMark).1,
                explanation := (scoreOfFlags stF.hasLive stF.hasRedMark).2,
                details := stF.details } := by
        simp [processName, hf, hr]
      have hreplay := runLinks_replay env (extractDetailLinks shtml)
        { details := [], hasLive := false, hasRedMark := false,
          cached := loadCacheMap store name, fetched := [] } stF
        { details := [], hasLive := false, hasRedMark := false,
          cached := loadCacheMap (saveCacheMap store name stF.cached) name,
          fetched := [] }
        hr rfl rfl rfl (loadCacheMap_save store name stF.cached)
      have hsecond : processName env (saveCacheMap store name stF.cached) name =
          { result := .ok { score := (scoreOfFlags stF.hasLive stF.hasRedMark).1,
                            explanation := (scoreOfFlags stF.hasLive stF.hasRedMark).2,
                            details := stF.details },
            store2 := saveCacheMap (saveCacheMap store name stF.cached) name
              stF.cached,
            detailFetches := [] ++ missUrls (extractDetailLinks shtml) stF.cached,
            cacheReads := [name], cacheWrites := [name] } := by
        simp only [processName, hf, hreplay]
      rw [hst, hsecond, hres1]
      refine ⟨rfl, ?_, ?_⟩
      · intro u hu
        simp only [List.nil_append] at hu
        rw [loadCacheMap_save]
        exact mem_missUrls (extractDetailLinks shtml) stF.cached u hu
      · rintro ⟨r, hok, hne⟩
        simp only [Except.ok.injEq] at hok
        have hdet : r.details = stF.details := by rw [← hok]
        rw [hdet] at hne
        have hcached := runLinks_all_cached env (extractDetailLinks shtml) _ stF hr hne
        simp only [List.nil_append]
        exact missUrls_nil_of_cached (extractDetailLinks shtml) stF.cached hcached

/-- C2 counterexample to the claim as stated: one discovered link whose detail
fetch fails is not cached by the first call, so the second call fetches it
again: its detail-page fetch list is not empty. -/
theorem processName_second_call_counterexample :
    (processName
      ⟨fun u => if u = searchUrlOf "n" then
        .ok "/australia/trademark/trademark-detail/9/q" else .error "boom"⟩
      (processName
        ⟨fun u => if u = searchUrlOf "n" then
          .ok "/australia/trademark/trademark-detail/9/q" else .error "boom"⟩
        [] "n").store2
      "n").detailFetches ≠ [] := by decide

theorem runLinks_append (env : FetchEnv) :
    ∀ (A B : List String) (st : LoopState),
    runLinks env (A ++ B) st =
      match runLinks env A st with
      | .ok st1 => runLinks env B st1
      | .error ef => .error ef := by
  intro A
  induction A with
  | nil => intro B st; rfl
  | cons rel rest ih =>
    intro B st
    simp only [List.cons_append, runLinks]
    cases hs : stepLink env st rel with
    | error e => rfl
    | ok st1 => exact ih B st1

theorem getElem_append_len {α : Type} : ∀ (xs : List α) (y : α) (zs : List α),
    (xs ++ y :: zs)[xs.length]? = some y := by
  intro xs
  induction xs with
  | nil => intro y zs; simp
  | cons x t ih =>
    intro y zs
    simp only [List.cons_append, List.length_cons, List.getElem?_cons_succ]
    exact ih y zs

/-- C7: a discovered detail URL absent from the cache whose fetch fails gets
an error-only record at its position in `details`, is not inserted into the
saved cache mapping (so the next call retries it), and the remaining URLs and
the remaining names of the batch are still processed. -/
theorem processName_detail_fetch_fails (env : FetchEnv) (store : Store)
    (name : String) (shtml : String) (L1 L2 : List String) (rel e : String)
    (r : SearchResult)
    (hf : env.fetch (searchUrlOf name) = .ok shtml)
    (hL : extractDetailLinks shtml = L1 ++ rel :: L2)
    (hun : alLookup (loadCacheMap store name) (baseUrl ++ rel) = none)
    (hfe : env.fetch (baseUrl ++ rel) = .error e)
    (hok : (processName env store name).result = .ok r) :
    r.details.length = (L1 ++ rel :: L2).length ∧
    r.details[L1.length]? = some (errorRecord e) ∧
    (errorRecord e).status = none ∧
    (errorRecord e).classes = none ∧
    (errorRecord e).error = some ("Error processing detail page: " ++ e) ∧
    alLookup (loadCacheMap (processName env store name).store2 name)
      (baseUrl ++ rel) = none ∧
    (∀ (store0 : Store) (names : List String),
      ((processList env store0 names).1).map Prod.fst = names) := by
  simp only [processName, hf] at hok ⊢
  cases hr : runLinks env (extractDetailLinks shtml)
      { details := [], hasLive := false, hasRedMark := false,
        cached := loadCacheMap store name, fetched := [] } with
  | error ef => rw [hr] at hok; simp at hok
  | ok stF =>
    rw [hr] at hok
    simp only [Except.ok.injEq] at hok
    have hdet : r.details = stF.details := by rw [← hok]
    have hrun := hr
    rw [hL, runLinks_append] at hrun
    cases hA : runLinks env L1
        { details := [], hasLive := false, hasRedMark := false,
          cached := loadCacheMap store name, fetched := [] } with
    | error ef => rw [hA] at hrun; simp at hrun
    | ok stA =>
      rw [hA] at hrun
      simp only at hrun
      have hnA : alLookup stA.cached (baseUrl ++ rel) = none :=
        runLinks_keeps_none env e L1 _ stA (baseUrl ++ rel) hA hun hfe
      have hstep : stepLink env stA rel = .ok
          { details := stA.details ++ [errorRecord e], hasLive := stA.hasLive,
            hasRedMark := stA.hasRedMark, cached := stA.cached,
            fetched := stA.fetched ++ [baseUrl ++ rel] } := by
        simp [stepLink, hnA, hfe]
      rw [runLinks] at hrun
      rw [hstep] at hrun
      have hcountA := runLinks_details_count env L1 _ stA hA
      simp only [List.length_nil, Nat.zero_add] at hcountA
      have hcountF := runLinks_details_count env (extractDetailLinks shtml) _ stF hr
      simp only [List.length_nil, Nat.zero_add] at hcountF
      refine ⟨?_, ?_, rfl, rfl, rfl, ?_, ?_⟩
      · rw [hdet, hcountF, hL]
      · obtain ⟨ds, hds⟩ := runLinks_details_mono env L2 _ stF hrun
        simp only at hds
        rw [hdet, hds, List.append_assoc, ← hcountA]
        exact getElem_append_len stA.details (errorRecord e) (ds)
      · have hnB : alLookup stF.cached (baseUrl ++ rel) = none := by
          refine runLinks_keeps_none env e L2 _ stF (baseUrl ++ rel) hrun ?_ hfe
          simpa using hnA
        rw [loadCacheMap_save]
        exact hnB
      · intro store0 names
        exact processList_calls env names store0

/-- Witness for `processName_detail_fetch_fails` at a concrete run with one
failing detail URL. -/
theorem processName_detail_fetch_fails_witness :
    ({ score := "Green",
       explanation := "No live trademark registrations were found for this name.",
       details := [errorRecord "x"] } : SearchResult).details[([] : List String).length]? =
      some (errorRecord "x") :=
  (processName_detail_fetch_fails
    ⟨fun u => if u = searchUrlOf "n" then
      .ok "/australia/trademark/trademark-detail/9/q" else .error "x"⟩
    [] "n" "/australia/trademark/trademark-detail/9/q" [] []
    "/australia/trademark/trademark-detail/9/q" "x"
    { score := "Green",
      explanation := "No live trademark registrations were found for this name.",
      details := [errorRecord "x"] }
    (by decide) (by decide) (by decide) (by decide) (by decide)).2.1
